import Mathlib

/-!
Verification of the arpy algebra core (blade product engine, derived
operators, configuration handling, term/multivector data types and the
expression evaluator slice) against its specification.

The Python source is embedded shallowly: every `def` here mirrors a
function or method of the repository (the doc comment names it).  Machine
integers are `Int`, Python strings are `String` (operated on as `List
Char` where the source indexes into them), fallible code returns
`Except Err` and in-place mutation is modelled by explicit state passing.
-/

namespace Arpy

deriving instance DecidableEq for Except

/-- Error kinds raised by the source (ValueError, KeyError, IndexError,
TypeError, the NotImplementedError of the operand-kind dispatch tables,
and the parser's AR_Error which is reported as a printed message plus a
None result rather than an escaping exception). -/
inductive Err where
  | configMismatch : Err
  | invalidIndex : Err
  | invalidSign : Err
  | keyError : Err
  | indexError : Err
  | valueError : Err
  | typeError : Err
  | unsupportedOp : Err
  | outOfFuel : Err
  deriving DecidableEq, Repr

/-- Position of the first occurrence of `x` in `l`; returns `l.length`
when `x` is absent.  Models Python `list.index` at call sites where the
element is known to be present (`list.index` raises ValueError when it is
not; theorems that rely on a position therefore carry membership
hypotheses). -/
def posOf (x : String) : List String → Nat
  | [] => 0
  | y :: ys => if y = x then 0 else posOf x ys + 1

/-- Position of the first occurrence of a character in a character list,
`l.length` when absent (Python `str.find` returns -1 when absent; call
sites only use it on present characters). -/
def posOfC (x : Char) : List Char → Nat
  | [] => 0
  | y :: ys => if y = x then 0 else posOfC x ys + 1

theorem posOf_lt_length {x : String} {l : List String} (h : x ∈ l) :
    posOf x l < l.length := by
  induction l with
  | nil => cases h
  | cons y ys ih =>
    simp only [posOf]
    by_cases hy : y = x
    · simp [hy]
    · rcases List.mem_cons.mp h with h | h
      · exact absurd h.symm hy
      · simpa [hy] using Nat.succ_lt_succ (ih h)

theorem posOf_inj {a b : String} {l : List String} (ha : a ∈ l) (hb : b ∈ l)
    (h : posOf a l = posOf b l) : a = b := by
  induction l with
  | nil => cases ha
  | cons y ys ih =>
    by_cases hya : y = a
    · by_cases hyb : y = b
      · exact hya ▸ hyb
      · subst hya
        simp only [posOf, if_pos rfl, if_neg hyb] at h
        exact absurd h.symm (Nat.succ_ne_zero _)
    · by_cases hyb : y = b
      · subst hyb
        simp only [posOf, if_pos rfl, if_neg hya] at h
        exact absurd h (Nat.succ_ne_zero _)
      · rcases List.mem_cons.mp ha with ha | ha
        · exact absurd ha.symm hya
        · rcases List.mem_cons.mp hb with hb | hb
          · exact absurd hb.symm hyb
          · simp only [posOf, if_neg hya, if_neg hyb, Nat.succ.injEq] at h
            exact ih ha hb h

/-- `ARConfig`: the parameter set of the algebra.  `allowedGroups` is the
`allowed_groups` attribute computed by `ARConfig.update_config` (held here
as a plain field; `updateConfig` below recomputes it). -/
structure ARConfig where
  allowed : List String
  metric : List Int
  divisionType : String
  allowedGroups : List String
  deriving DecidableEq, Repr

/-- `ARConfig.__eq__`: compares metric, allowed and division type (the
derived groupings are not compared). -/
def cfgEq (a b : ARConfig) : Bool :=
  a.metric == b.metric && a.allowed == b.allowed && a.divisionType == b.divisionType

/-- The default `allowed` list from `config.py` (`_B + _T + _A + _E`). -/
def defaultAllowed : List String :=
  ["p", "23", "31", "12", "0", "023", "031", "012",
   "123", "1", "2", "3", "0123", "01", "02", "03"]

/-- Derived data computed by `ARConfig.update_config` that later
operations read (`_h`, `_q`, `_B`, `_T`, `_A`, `_E`, the `e_key` of the
`xi_groups` table, and `allowed_groups`).  The `zet_comps`, `xi_groups`
and `group_to_zet` dictionaries are string re-groupings of these same
fields and are not read by any claim, so they are not replicated. -/
structure Derived where
  h : String
  q : String
  B : List String
  T : List String
  A : List String
  E : List String
  eKey : String
  allowedGroups : List String
  deriving DecidableEq, Repr

/-- `ARConfig.update_config`: recomputes the derived groupings from the
current allowed list.  The source indexes `[0]` into the filtered lists
for `_h` and `_q` and into `_E` for `e_key`, raising IndexError when a
list is empty; all other steps cannot fail. -/
def updateConfig (allowed : List String) : Except Err Derived := do
  let hs := allowed.filter (fun a => a.length == 3 && !(a.data.contains '0'))
  let h ← match hs.head? with
    | some h => pure h
    | none => throw Err.indexError
  let qs := allowed.filter (fun a => a.length == 4)
  let q ← match qs.head? with
    | some q => pure q
    | none => throw Err.indexError
  let B := allowed.filter (fun a => a.length == 2 && !(a.data.contains '0'))
  let T := allowed.filter (fun a => a.length == 3 && a.data.contains '0')
  let A := allowed.filter (fun a => a.length == 1 && !(a == "p") && !(a == "0"))
  let E := allowed.filter (fun a => a.length == 2 && a.data.contains '0')
  let e0 ← match E.head? with
    | some e => pure e
    | none => throw Err.indexError
  let eKey := if e0.data.head? = some '0' then "0i" else "i0"
  pure { h := h, q := q, B := B, T := T, A := A, E := E, eKey := eKey,
         allowedGroups := ["p", "0", "123", "0123"] ++ ["i", eKey, "jk", "0jk"] }

/-- The module-level default configuration (`config = ARConfig(allowed,
metric, "into")` in `config.py`), with its derived `allowed_groups`. -/
def defaultConfig : ARConfig :=
  { allowed := defaultAllowed
    metric := [1, -1, -1, -1]
    divisionType := "into"
    allowedGroups := ["p", "0", "123", "0123", "i", "0i", "jk", "0jk"] }

example : (updateConfig defaultAllowed).map Derived.allowedGroups =
    Except.ok defaultConfig.allowedGroups := by decide

/-- `Alpha`: index, sign, and the `allowed` / `allowed_groups` lists of
the configuration it was constructed under (the source binds both onto
the instance). -/
structure Alpha where
  index : String
  sign : Int
  allowed : List String
  allowedGroups : List String
  deriving DecidableEq, Repr

/-- `Alpha.__eq__`: structural on index and sign only; the configuration
the operands were built under is not consulted. -/
def aeqB (a b : Alpha) : Bool :=
  a.index == b.index && a.sign == b.sign

/-- `Alpha.__init__`: validates the sign, folds a leading minus of the
index into the sign, and requires the index to be one of the
configuration's allowed labels or group labels. -/
def mkAlpha (index : String) (sign : Int) (cfg : ARConfig) : Except Err Alpha := do
  if sign ≠ 1 ∧ sign ≠ -1 then throw Err.invalidSign
  let (index, sign) :=
    if index.data.head? = some '-' then (⟨index.data.tail⟩, sign * -1) else (index, sign)
  if index ∈ cfg.allowed ++ cfg.allowedGroups then
    pure { index := index, sign := sign, allowed := cfg.allowed,
           allowedGroups := cfg.allowedGroups }
  else throw Err.invalidIndex

/-- `Alpha.__neg__`: copy with the sign flipped. -/
def negAlpha (a : Alpha) : Alpha := { a with sign := a.sign * -1 }

/-- The metric sign of a generator character: the `metric` dictionary
built by `find_prod` from `zip("0123", cfg.metric)` (every key looked up
is a generator character, so the default is never reached there). -/
def metricAt (metric : List Int) (c : Char) : Int :=
  match (['0', '1', '2', '3'].zip metric).filter (fun kv => kv.1 == c) with
  | [] => 0
  | kv :: _ => kv.2

/-- The `targets` dictionary of `find_prod` (`{frozenset(a): a for a in
cfg.allowed}`): maps a character set to the last allowed label with that
character set (later comprehension entries overwrite earlier ones). -/
def findTarget (allowed : List String) (comps : List Char) : Option String :=
  (allowed.filter (fun t => t.data.all (· ∈ comps) && comps.all (· ∈ t.data))).getLast?

/-- Remove the first occurrence of a character
(`components.replace(POINT, "", 1)`). -/
def removeFirst (c : Char) : List Char → List Char
  | [] => []
  | x :: xs => if x = c then xs else x :: removeFirst c xs

/-- The final re-ordering loop of `find_prod`: repeatedly flip the sign
when the first remaining 1-based target rank is even, drop it, and
renumber the remaining ranks contiguously.  The ranks are pairwise
distinct at every call site (blade characters are distinct), so the
renumbering dictionary is modelled by counting strictly smaller ranks. -/
def popSignGo : Nat → List Nat → Int → Int
  | 0, _, s => s
  | _ + 1, [], s => s
  | _ + 1, [_], s => s
  | fuel + 1, x :: y :: rest, s =>
    let s := if x % 2 == 0 then s * -1 else s
    popSignGo fuel ((y :: rest).map (fun k => ((y :: rest).filter (· < k)).length + 1)) s

/-- The loop entry point: the list shrinks by one element per iteration,
so its length bounds the number of iterations (structural fuel standing
in for the source's `while len(current) > 1`). -/
def popSign (current : List Nat) (s : Int) : Int :=
  popSignGo current.length current s

/-- One iteration of the cancellation loop of `find_prod` for a repeated
generator character: locate its two occurrences, flip the sign once per
character strictly between them when that count is odd, multiply by the
metric sign, and drop every occurrence of the character. -/
def cancelRepeated (metric : List Int) (repeated : Char)
    (acc : Int × List Char) : Int × List Char :=
  let (sign, comps) := acc
  let first := posOfC repeated comps
  let second := first + 1 + posOfC repeated (comps.drop (first + 1))
  let nPops := second - first - 1
  let sign := if nPops % 2 == 1 then sign * -1 else sign
  let sign := sign * metricAt metric repeated
  (sign, comps.filter (· ≠ repeated))

/-- `find_prod` (the cached wrapper is modelled separately by
`findProdCached`): the signed product of two alphas.  The iteration order
over `set(i._index).intersection(set(j._index))` is unspecified in the
source (Python set order); it is determinised here as order of first
occurrence in `i.index`, which does not change the result because each
character's parity contribution is computed on the current component
string. -/
def findProd (i j : Alpha) (cfg : ARConfig) : Except Err Alpha := do
  if ¬ (i.allowed = j.allowed ∧ j.allowed = cfg.allowed) then
    throw Err.configMismatch
  let sign := i.sign * j.sign
  let components := i.index.data ++ j.index.data
  if components.contains 'p' then
    mkAlpha ⟨removeFirst 'p' components⟩ sign cfg
  else
  let repeats := (i.index.data.filter (fun c => j.index.data.contains c)).dedup
  let (sign, components) := repeats.foldl
    (fun acc c => cancelRepeated cfg.metric c acc) (sign, components)
  if components.isEmpty then
    mkAlpha "p" sign cfg
  else
  match findTarget cfg.allowed components with
  | none => throw Err.keyError
  | some target =>
    if target.data = components then
      mkAlpha target sign cfg
    else
      let ordering := fun c => posOfC c target.data + 1
      let current := components.map ordering
      mkAlpha target (popSign current sign) cfg

/-- `inverse`: the alpha with the same index and sign
`find_prod(a, a, cfg).sign * a.sign`. -/
def inverse (a : Alpha) (cfg : ARConfig) : Except Err Alpha := do
  let sq ← findProd a a cfg
  mkAlpha a.index (sq.sign * a.sign) cfg

/-- `_div_by_alpha_alpha`: the `(Alpha, Alpha)` entry of the `div_by`
dispatch table. -/
def divByAA (a b : Alpha) (cfg : ARConfig) : Except Err Alpha := do
  let binv ← inverse b cfg
  findProd a binv cfg

/-- `_div_into_alpha_alpha`: the `(Alpha, Alpha)` entry of the `div_into`
dispatch table. -/
def divIntoAA (a b : Alpha) (cfg : ARConfig) : Except Err Alpha := do
  let ainv ← inverse a cfg
  findProd ainv b cfg

/-- `_group_commutator`: `full(full(full(a, b), a⁻¹), b⁻¹)` for alpha
operands (the `(Alpha, Alpha)` entry of `full` is `find_prod`). -/
def groupCommutator (a b : Alpha) (cfg : ARConfig) : Except Err Alpha := do
  let p1 ← findProd a b cfg
  let ainv ← inverse a cfg
  let p2 ← findProd p1 ainv cfg
  let binv ← inverse b cfg
  findProd p2 binv cfg

/-- A blade of the default configuration with the given index and sign. -/
def blade (index : String) (sign : Int) : Alpha :=
  { index := index, sign := sign, allowed := defaultAllowed,
    allowedGroups := defaultConfig.allowedGroups }

/-- All 32 signed blades of the default configuration. -/
def defaultBlades : List Alpha :=
  defaultAllowed.map (fun i => blade i 1) ++ defaultAllowed.map (fun i => blade i (-1))

example : findProd (blade "1" 1) (blade "2" 1) defaultConfig =
    Except.ok (blade "12" 1) := by decide

/-- C1: under the default configuration (the allowed list of the claim,
metric `+---`, division `into`): `full(Alpha("1"), Alpha("2"))` is
`Alpha("12")` with sign +1, `full(Alpha("2"), Alpha("1"))` is
`Alpha("12")` with sign -1, and `div_by(Alpha("1"), Alpha("2"))` is
`Alpha("12")` with sign -1 (equality of alphas is on index and sign). -/
theorem c1_fixed_products :
    findProd (blade "1" 1) (blade "2" 1) defaultConfig = Except.ok (blade "12" 1) ∧
    findProd (blade "2" 1) (blade "1" 1) defaultConfig = Except.ok (blade "12" (-1)) ∧
    divByAA (blade "1" 1) (blade "2" 1) defaultConfig = Except.ok (blade "12" (-1)) := by
  decide

/-- C2: for every signed blade of the default configuration,
`find_prod(a, inverse(a, cfg), cfg)` is the identity blade `p` with
sign +1. -/
theorem c2_product_with_inverse_is_identity (a : Alpha) (h : a ∈ defaultBlades) :
    (do
      let ainv ← inverse a defaultConfig
      findProd a ainv defaultConfig) = Except.ok (blade "p" 1) := by
  have hall : defaultBlades.all (fun a =>
      (do
        let ainv ← inverse a defaultConfig
        findProd a ainv defaultConfig) == Except.ok (blade "p" 1)) = true := by
    decide
  exact eq_of_beq (List.all_eq_true.mp hall a h)

/-- Witness for C2 at the blade with index 1 and sign -1. -/
theorem c2_product_with_inverse_is_identity_witness :
    (do
      let ainv ← inverse (blade "1" (-1)) defaultConfig
      findProd (blade "1" (-1)) ainv defaultConfig) = Except.ok (blade "p" 1) :=
  c2_product_with_inverse_is_identity (blade "1" (-1)) (by decide)

set_option maxHeartbeats 12000000 in
/-- C3: for every pair of signed blades of the default configuration, the
group commutator is the identity blade `p` with sign +1 or -1. -/
theorem c3_commutator_is_signed_identity (a b : Alpha)
    (ha : a ∈ defaultBlades) (hb : b ∈ defaultBlades) :
    groupCommutator a b defaultConfig = Except.ok (blade "p" 1) ∨
    groupCommutator a b defaultConfig = Except.ok (blade "p" (-1)) := by
  have : defaultBlades.all (fun a => defaultBlades.all (fun b =>
      groupCommutator a b defaultConfig == Except.ok (blade "p" 1) ||
      groupCommutator a b defaultConfig == Except.ok (blade "p" (-1)))) = true := by
    decide
  have := List.all_eq_true.mp (List.all_eq_true.mp this a ha) b hb
  rcases Bool.or_eq_true_iff.mp this with h | h
  · exact Or.inl (eq_of_beq h)
  · exact Or.inr (eq_of_beq h)

/-- Cache key used by the `product_cache` decorator: `(i, j,
tuple(cfg.metric), tuple(cfg.allowed))`.  The alphas are hashed and
compared by `Alpha.__eq__`/`__hash__`, i.e. on (index, sign) only, so the
key records just those fields. -/
structure CacheKey where
  i : String × Int
  j : String × Int
  metric : List Int
  allowed : List String
  deriving DecidableEq, Repr

def cacheKey (i j : Alpha) (cfg : ARConfig) : CacheKey :=
  { i := (i.index, i.sign), j := (j.index, j.sign),
    metric := cfg.metric, allowed := cfg.allowed }

/-- The decorator's `cache` dictionary, in insertion order. -/
def ProductCache := List (CacheKey × Alpha)

def cacheLookup (k : CacheKey) : List (CacheKey × Alpha) → Option Alpha
  | [] => none
  | kv :: rest => if kv.1 = k then some kv.2 else cacheLookup k rest

/-- The `product_cache` wrapper around `find_prod`: a hit returns a copy
of the stored result without re-running the body (an `Alpha` is always
truthy, so `if result:` is a presence test); a miss runs the body, stores
a successful result, and leaves the cache untouched when the body
raises. -/
def findProdCached (cache : List (CacheKey × Alpha)) (i j : Alpha) (cfg : ARConfig) :
    Except Err Alpha × List (CacheKey × Alpha) :=
  let k := cacheKey i j cfg
  match cacheLookup k cache with
  | some r => (Except.ok r, cache)
  | none =>
    match findProd i j cfg with
    | Except.ok r => (Except.ok r, cache ++ [(k, r)])
    | Except.error e => (Except.error e, cache)

/-- The default allowed list with the labels 1 and 2 interchanged: a
valid but different basis ordering, used to build operands from a second
configuration. -/
def swappedAllowed : List String :=
  ["p", "23", "31", "12", "0", "023", "031", "012",
   "2", "1", "3", "0123", "01", "02", "03", "123"]

/-- A blade structurally equal (index, sign) to `blade "1" 1` but carrying
the allowed list of a different configuration. -/
def mismatchedBlade : Alpha := { blade "1" 1 with allowed := swappedAllowed }

/-- C4 counterexample: after `find_prod(a1, a1)` populates the cache, the
same call with operands whose allowed list differs from the
configuration's returns the cached value instead of failing: the
configuration check lives in the wrapped body, which a cache hit
skips. -/
theorem c4_counterexample :
    mismatchedBlade.allowed ≠ defaultConfig.allowed ∧
    (findProdCached
        (findProdCached [] (blade "1" 1) (blade "1" 1) defaultConfig).2
        mismatchedBlade mismatchedBlade defaultConfig).1 =
      Except.ok (blade "p" (-1)) := by
  decide

/-- C4 (amended): the configuration-mismatch error is raised exactly on
cache misses; a populated cache entry for the operands' (index, sign)
pairs under the same metric and allowed order is returned as-is, without
the check. -/
theorem c4_mismatch_checked_only_on_cache_miss (cache : List (CacheKey × Alpha))
    (i j : Alpha) (cfg : ARConfig)
    (hmiss : cacheLookup (cacheKey i j cfg) cache = none)
    (hmis : ¬ (i.allowed = j.allowed ∧ j.allowed = cfg.allowed)) :
    (findProdCached cache i j cfg).1 = Except.error Err.configMismatch ∧
    (findProdCached cache i j cfg).2 = cache := by
  have hfp : findProd i j cfg = Except.error Err.configMismatch := by
    unfold findProd
    rw [if_pos hmis]
    rfl
  simp [findProdCached, hmiss, hfp]

/-- Witness for C4 (amended) on the empty cache with a mismatched left
operand. -/
theorem c4_mismatch_checked_only_on_cache_miss_witness :
    (findProdCached [] mismatchedBlade (blade "1" 1) defaultConfig).1 =
      Except.error Err.configMismatch ∧
    (findProdCached [] mismatchedBlade (blade "1" 1) defaultConfig).2 = [] :=
  c4_mismatch_checked_only_on_cache_miss [] mismatchedBlade (blade "1" 1)
    defaultConfig (by decide) (by decide)

/-- Witness for C3 at the blade pair (index 1, sign +1), (index 2,
sign -1). -/
theorem c3_commutator_is_signed_identity_witness :
    groupCommutator (blade "1" 1) (blade "2" (-1)) defaultConfig =
      Except.ok (blade "p" 1) ∨
    groupCommutator (blade "1" 1) (blade "2" (-1)) defaultConfig =
      Except.ok (blade "p" (-1)) :=
  c3_commutator_is_signed_identity (blade "1" 1) (blade "2" (-1))
    (by decide) (by decide)

/-- The mutable state of an `ARConfig` instance relevant to the allowed
setter: the committed `_allowed`, `_metric` and division type plus the
derived groupings recomputed by `update_config`. -/
structure CfgState where
  allowed : List String
  metric : List Int
  divisionType : String
  derived : Derived
  deriving DecidableEq, Repr

/-- The valid index characters (`set(c).issubset(set("p0123"))`). -/
def validLabelChars (lbl : String) : Bool :=
  lbl.data.all (fun ch => ch ∈ ['p', '0', '1', '2', '3'])

/-- The `ARConfig.allowed` setter: rejects a list of the wrong length or
with invalid characters before any mutation; otherwise commits the new
list to `_allowed` and then runs `update_config`, whose own failure
(IndexError on a missing grouping) leaves the committed list in place
with stale derived data.  `update_env` only injects names into the
calling scope and is not modelled.  Note the setter performs no
duplicate-label check. -/
def allowedSetter (a : List String) (st : CfgState) : CfgState × Option Err :=
  if a.length ≠ 16 then (st, some Err.valueError)
  else if ¬ a.all validLabelChars then (st, some Err.valueError)
  else
    let st := { st with allowed := a }
    match updateConfig a with
    | Except.error e => (st, some e)
    | Except.ok d => ({ st with derived := d }, none)

/-- The derived groupings of the default configuration. -/
def defaultDerived : Derived :=
  { h := "123", q := "0123", B := ["23", "31", "12"], T := ["023", "031", "012"],
    A := ["1", "2", "3"], E := ["01", "02", "03"], eKey := "0i",
    allowedGroups := defaultConfig.allowedGroups }

example : updateConfig defaultAllowed = Except.ok defaultDerived := by decide

/-- The default configuration state (`config = ARConfig(allowed, metric,
"into")`). -/
def defaultCfgState : CfgState :=
  { allowed := defaultAllowed, metric := [1, -1, -1, -1],
    divisionType := "into", derived := defaultDerived }

/-- An allowed list with valid characters and length 16 but a duplicated
label ("31" twice, "23" missing): only 15 distinct labels. -/
def dupAllowed : List String :=
  ["p", "31", "31", "12", "0", "023", "031", "012",
   "123", "1", "2", "3", "0123", "01", "02", "03"]

/-- C6 counterexample: a duplicated allowed list is accepted without any
error, leaving the configuration with only 15 distinct labels; and a
malformed list that passes the length and character checks but breaks
`update_config` (16 copies of "p") commits `_allowed` before the failure,
so assignment is not all-or-nothing either. -/
theorem c6_counterexample :
    (allowedSetter dupAllowed defaultCfgState).2 = none ∧
    (allowedSetter dupAllowed defaultCfgState).1.allowed = dupAllowed ∧
    dupAllowed.dedup.length = 15 ∧
    (allowedSetter (List.replicate 16 "p") defaultCfgState).2 = some Err.indexError ∧
    (allowedSetter (List.replicate 16 "p") defaultCfgState).1.allowed =
      List.replicate 16 "p" := by
  decide

/-- C6 (amended): a wrong-count or invalid-character allowed list is
rejected at assignment time with the configuration state left exactly as
it was; duplicate labels are not checked, and a 16-element
valid-character list lacking a required grouping commits `_allowed`
before `update_config` fails. -/
theorem c6_wrong_count_or_bad_chars_rejected_unchanged (a : List String)
    (st : CfgState) (h : a.length ≠ 16 ∨ ¬ a.all validLabelChars) :
    allowedSetter a st = (st, some Err.valueError) := by
  rcases h with h | h
  · simp [allowedSetter, h]
  · by_cases hl : a.length = 16
    · simp [allowedSetter, hl, h]
    · simp [allowedSetter, hl]

/-- Witness for C6 (amended) at a 17-element list. -/
theorem c6_wrong_count_or_bad_chars_rejected_unchanged_witness :
    allowedSetter (List.replicate 17 "p") defaultCfgState =
      (defaultCfgState, some Err.valueError) :=
  c6_wrong_count_or_bad_chars_rejected_unchanged (List.replicate 17 "p")
    defaultCfgState (by decide)

/-- `Xi`: a magnitude token with a symbolic value, a sign, accumulated
differentiation blades, and the configuration it was built under (the
source stores `cfg` on the instance and reads its allowed list in
`__lt__`). -/
structure XiV where
  val : String
  sign : Int
  partials : List Alpha
  cfg : ARConfig
  deriving DecidableEq, Repr

/-- `Xi.__init__` for a string value: folds a leading minus into the
sign. -/
def mkXi (val : String) (partials : List Alpha) (sign : Int) (cfg : ARConfig) : XiV :=
  if val.data.head? = some '-' then
    { val := ⟨val.data.tail⟩, sign := sign * -1, partials := partials, cfg := cfg }
  else
    { val := val, sign := sign, partials := partials, cfg := cfg }

/-- `Xi.__init__` for an `Alpha` value: only the blade's index is kept
(its sign is ignored; the token's own sign defaults separately). -/
def mkXiOfAlpha (a : Alpha) (cfg : ARConfig) : XiV :=
  mkXi a.index [] 1 cfg

/-- Pointwise list equality under an element equality, as Python compares
two lists with `==`. -/
def listEqBy (eqf : α → α → Bool) : List α → List α → Bool
  | [], [] => true
  | a :: as, b :: bs => eqf a b && listEqBy eqf as bs
  | _, _ => false

/-- Python list `<`: walk the two lists in step; the first position whose
elements differ under the element equality decides via the element
ordering; a strict prefix is smaller. -/
def pyListLt (eqf ltf : α → α → Bool) : List α → List α → Bool
  | [], [] => false
  | [], _ :: _ => true
  | _ :: _, [] => false
  | a :: as, b :: bs => if eqf a b then pyListLt eqf ltf as bs else ltf a b

/-- `Xi.__eq__`: value, partials (pointwise blade equality) and sign; the
configuration is not compared. -/
def xiEq (x y : XiV) : Bool :=
  x.val == y.val && listEqBy aeqB x.partials y.partials && x.sign == y.sign

/-- `Alpha.__lt__`, totalised: positions in the left operand's
allowed + allowed_groups list (the source looks both indices up in that
one list).  `list.index` raises ValueError — re-raised as TypeError —
when an index is missing; `posOf` instead yields the list length there,
so this function agrees with the source exactly when both indices occur
in the list (`alphaLtE` below is the raising embedding and
`alphaLt_agrees` the bridge); theorems about sorting carry that
membership as a hypothesis. -/
def alphaLtB (a b : Alpha) : Bool :=
  decide (posOf a.index (a.allowed ++ a.allowedGroups) <
    posOf b.index (a.allowed ++ a.allowedGroups))

/-- `Alpha.__lt__` with the source's error behaviour: TypeError when
either index is missing from the left operand's allowed + groups list. -/
def alphaLtE (a b : Alpha) : Except Err Bool :=
  if a.index ∈ a.allowed ++ a.allowedGroups ∧
     b.index ∈ a.allowed ++ a.allowedGroups then
    Except.ok (decide (posOf a.index (a.allowed ++ a.allowedGroups) <
      posOf b.index (a.allowed ++ a.allowedGroups)))
  else Except.error Err.typeError

theorem alphaLt_agrees (a b : Alpha)
    (ha : a.index ∈ a.allowed ++ a.allowedGroups)
    (hb : b.index ∈ a.allowed ++ a.allowedGroups) :
    alphaLtE a b = Except.ok (alphaLtB a b) := by
  simp [alphaLtE, alphaLtB, ha, hb]

/-- `Xi.__lt__`: raw string comparison when either value is not an
allowed label of the left token's configuration; otherwise configured
position, then the partials lists (Python list comparison over blade
equality and blade ordering), then sign. -/
def xiLt (x y : XiV) : Bool :=
  if ¬ (x.val ∈ x.cfg.allowed ∧ y.val ∈ x.cfg.allowed) then
    decide (x.val < y.val)
  else if x.val ≠ y.val then
    decide (posOf x.val x.cfg.allowed < posOf y.val x.cfg.allowed)
  else if ¬ listEqBy aeqB x.partials y.partials then
    pyListLt aeqB alphaLtB x.partials y.partials
  else decide (x.sign < y.sign)

/-- Python `sorted`: a stable sort with respect to the strict comparison
`lt` (Timsort).  Modelled as stable insertion sort: an element is placed
after every element strictly less than it, hence before the first element
it does not strictly exceed, preserving the input order of elements that
do not compare.  This agrees with any stable sort — in particular the
source's — whenever `lt` is a strict weak order on the elements at hand;
the theorems that sort carry hypotheses ensuring that. -/
def insertBy (lt : α → α → Bool) (x : α) : List α → List α
  | [] => [x]
  | y :: ys => if lt y x then y :: insertBy lt x ys else x :: y :: ys

def sortBy (lt : α → α → Bool) : List α → List α
  | [] => []
  | x :: xs => insertBy lt x (sortBy lt xs)

/-- `Term`: the sign-normalised blade `_alpha`, the extracted sign, the
magnitude tokens, the term-level partials, and the construction
configuration. -/
structure TermV where
  alpha : Alpha
  sign : Int
  components : List XiV
  componentPartials : List Alpha
  cfg : ARConfig
  deriving DecidableEq, Repr

/-- `Term.__lt__`: by blade ordering when the blades differ under blade
equality, otherwise by Python list comparison of the sorted component
lists. -/
def termLt (t u : TermV) : Bool :=
  if ¬ aeqB t.alpha u.alpha then alphaLtB t.alpha u.alpha
  else pyListLt xiEq xiLt (sortBy xiLt t.components) (sortBy xiLt u.components)

/-- `Term.__eq__`: configuration, blade, sign, sorted components
(pointwise `Xi.__eq__`), and sorted term-level partials (pointwise blade
equality). -/
def termEq (t u : TermV) : Bool :=
  cfgEq t.cfg u.cfg && aeqB t.alpha u.alpha && t.sign == u.sign &&
  listEqBy xiEq (sortBy xiLt t.components) (sortBy xiLt u.components) &&
  listEqBy aeqB (sortBy alphaLtB t.componentPartials)
    (sortBy alphaLtB u.componentPartials)

/-- `Term.__neg__`: copy with the sign flipped. -/
def negTerm (t : TermV) : TermV := { t with sign := t.sign * -1 }

/-- The tail of `Term.__init__` shared by all construction paths: fold a
negative blade sign and negative component signs into the term sign;
term-level partials start empty. -/
def finishTerm (alpha : Alpha) (comps : List XiV) (sign : Int) (cfg : ARConfig) : TermV :=
  let (alpha, sign) :=
    if alpha.sign = -1 then ({ alpha with sign := 1 }, sign * -1) else (alpha, sign)
  let sign := comps.foldl (fun s c => if c.sign = -1 then s * -1 else s) sign
  let comps := comps.map (fun c => if c.sign = -1 then { c with sign := 1 } else c)
  { alpha := alpha, sign := sign, components := comps,
    componentPartials := [], cfg := cfg }

/-- `Term.__init__` for an `Alpha` argument with the component list
defaulted: one magnitude token named after the blade. -/
def mkTermAlpha (alpha : Alpha) (cfg : ARConfig) : TermV :=
  finishTerm alpha [mkXiOfAlpha { alpha with sign := 1 } cfg] 1 cfg

/-- `Term.__init__` for an `Alpha` argument and an explicit component
list. -/
def mkTermAC (alpha : Alpha) (comps : List XiV) (cfg : ARConfig) : TermV :=
  finishTerm alpha comps 1 cfg

/-- `Term.__init__` for a string argument: fold a leading minus, split an
explicit `idx[expr]` magnitude when the string matches the source's
regex (an index prefix, one bracket, a closing bracket somewhere after —
more than one opening bracket makes the two-way unpack of `split` fail),
build the blade (validating the index, with the default +1 sign since the
minus was already folded), then the shared tail. -/
def mkTermStr (s : String) (cfg : ARConfig) : Except Err TermV := do
  let (s0, sign) :=
    if s.data.head? = some '-' then ((⟨s.data.tail⟩ : String), (-1 : Int)) else (s, 1)
  let pre := s0.data.takeWhile (fun ch => ch ∈ ['p', '0', '1', '2', '3'])
  let post := s0.data.drop pre.length
  if post.head? = some '[' ∧ (post.drop 1).contains ']' then
    if (s0.data.filter (fun ch => ch = '[')).length ≠ 1 then throw Err.valueError
    else
      let x := mkXi ⟨(post.drop 1).dropLast⟩ [] 1 cfg
      let a ← mkAlpha ⟨pre⟩ 1 cfg
      pure (finishTerm a [x] sign cfg)
  else
    let a ← mkAlpha s0 1 cfg
    pure (finishTerm a [mkXiOfAlpha a cfg] sign cfg)

theorem insertBy_perm (lt : α → α → Bool) (x : α) (l : List α) :
    (insertBy lt x l).Perm (x :: l) := by
  induction l with
  | nil => exact List.Perm.refl _
  | cons y ys ih =>
    simp only [insertBy]
    by_cases h : lt y x = true
    · rw [if_pos h]
      exact (ih.cons y).trans (List.Perm.swap x y ys)
    · rw [if_neg h]

theorem sortBy_perm (lt : α → α → Bool) (l : List α) :
    (sortBy lt l).Perm l := by
  induction l with
  | nil => exact List.Perm.refl _
  | cons x xs ih =>
    exact (insertBy_perm lt x (sortBy lt xs)).trans (ih.cons x)

theorem mem_sortBy {lt : α → α → Bool} {l : List α} {y : α} :
    y ∈ sortBy lt l ↔ y ∈ l :=
  (sortBy_perm lt l).mem_iff

/-- `MultiVector`: the stored term list (kept sorted by the constructor)
and the configuration. -/
structure MultiVectorV where
  terms : List TermV
  cfg : ARConfig
  deriving DecidableEq, Repr

/-- `MultiVector.__init__` for a list of already-built Terms: every
term's index must be an allowed label of the configuration; the terms are
stored sorted. -/
def mkMV (ts : List TermV) (cfg : ARConfig) : Except Err MultiVectorV :=
  if ts.all (fun t => t.alpha.index ∈ cfg.allowed) then
    Except.ok { terms := sortBy termLt ts, cfg := cfg }
  else Except.error Err.invalidIndex

/-- `MultiVector.__mul__`: scalar multiplication by an integer.  A
negative factor flips every term's sign; the term list is repeated,
sorted, and — the point of claim C10 — passed to `MultiVector(terms)`
without the operand's configuration, so the result is built under the
module-level default configuration. -/
def mulMV (m : MultiVectorV) (n : Int) : Except Err MultiVectorV :=
  let (n, terms) := if n < 0 then (-n, m.terms.map negTerm) else (n, m.terms)
  let terms := sortBy termLt (List.flatten (List.replicate n.toNat terms))
  mkMV terms defaultConfig

/-- The configuration with the swapped allowed list (same metric and
division as the default). -/
def swappedConfig : ARConfig :=
  { defaultConfig with allowed := swappedAllowed }

/-- The ordering claim C10 asserts for the result terms, written from the
claim: terms ordered by the position of their blade index in the default
allowed list. -/
def specDefaultOrderLt (t u : TermV) : Bool :=
  decide (posOf t.alpha.index defaultAllowed < posOf u.alpha.index defaultAllowed)

/-- A two-term multivector built under the swapped configuration (indices
1 and 2, which that configuration orders as 2 before 1). -/
def c10mv : Except Err MultiVectorV := do
  let t1 ← mkTermStr "1" swappedConfig
  let t2 ← mkTermStr "2" swappedConfig
  mkMV [t1, t2] swappedConfig

/-- C10 counterexample: multiplying that multivector by 1 does yield a
result carrying the default configuration, but its terms come out in the
order 2, 1 — the operand terms' own configured order — not in the order
of the default allowed list (1 before 2), so the claim's "ordered against
the default allowed list" part fails. -/
theorem c10_counterexample :
    (c10mv.bind (fun m => mulMV m 1)).map
        (fun r => (r.cfg, r.terms.map (fun t => t.alpha.index))) =
      Except.ok (defaultConfig, ["2", "1"]) ∧
    (c10mv.bind (fun m => mulMV m 1)).map
        (fun r => r.terms == sortBy specDefaultOrderLt r.terms) =
      Except.ok false := by
  decide

/-- C10 (amended): `MultiVector.__mul__` builds its result under the
module-level default configuration — the result carries the default
configuration and every result term's index has been re-validated against
the default allowed list — but the terms are ordered by their own alphas'
configured order, not the default one. -/
theorem c10_mul_builds_under_default_config (m : MultiVectorV) (n : Int)
    (r : MultiVectorV) (h : mulMV m n = Except.ok r) :
    r.cfg = defaultConfig ∧ ∀ t ∈ r.terms, t.alpha.index ∈ defaultAllowed := by
  obtain ⟨ts, hts⟩ : ∃ ts, mulMV m n = mkMV ts defaultConfig := ⟨_, rfl⟩
  rw [hts] at h
  unfold mkMV at h
  split at h
  · cases h
    next hall =>
      refine ⟨rfl, fun t ht => ?_⟩
      have := List.all_eq_true.mp hall t (mem_sortBy.mp ht)
      exact of_decide_eq_true this
  · cases h

/-- Witness for C10 (amended): the empty multivector of the swapped
configuration times 2. -/
theorem c10_mul_builds_under_default_config_witness :
    ({ terms := [], cfg := defaultConfig } : MultiVectorV).cfg = defaultConfig ∧
    ∀ t ∈ ({ terms := [], cfg := defaultConfig } : MultiVectorV).terms,
      t.alpha.index ∈ defaultAllowed :=
  c10_mul_builds_under_default_config
    { terms := [], cfg := swappedConfig } 2
    { terms := [], cfg := defaultConfig } (by decide)

/-- C9 counterexample: two blades with the same index and sign built
under different configurations compare equal — an ordinary boolean
answer, not an error — and two terms built under different
configurations compare unequal, again as an ordinary boolean. -/
theorem c9_counterexample :
    (blade "1" 1).allowed ≠ mismatchedBlade.allowed ∧
    aeqB (blade "1" 1) mismatchedBlade = true ∧
    cfgEq defaultConfig swappedConfig = false ∧
    termEq (mkTermAlpha (blade "1" 1) defaultConfig)
      (mkTermAlpha mismatchedBlade swappedConfig) = false := by
  decide

/-- C9 (amended): cross-configuration comparisons return ordinary values
rather than raising — blade equality ignores the configuration entirely
(same index and sign compare equal under any pair of configurations),
term equality returns False when the configurations differ, and blade
ordering only raises when an operand's index is missing from the left
operand's allowed + groups list. -/
theorem c9_cross_config_comparisons_return_values (a b : Alpha) (t u : TermV)
    (hi : a.index = b.index) (hs : a.sign = b.sign)
    (hc : cfgEq t.cfg u.cfg = false)
    (ha : a.index ∈ a.allowed ++ a.allowedGroups)
    (hb : b.index ∈ a.allowed ++ a.allowedGroups) :
    aeqB a b = true ∧ termEq t u = false ∧
    alphaLtE a b = Except.ok (alphaLtB a b) := by
  refine ⟨?_, ?_, alphaLt_agrees a b ha hb⟩
  · simp [aeqB, hi, hs]
  · simp [termEq, hc]

/-- Witness for C9 (amended) at the cross-configuration blade and term
pair of the counterexample's shape. -/
theorem c9_cross_config_comparisons_return_values_witness :
    aeqB (blade "1" 1) mismatchedBlade = true ∧
    termEq (mkTermAlpha (blade "1" 1) defaultConfig)
      (mkTermAlpha mismatchedBlade swappedConfig) = false ∧
    alphaLtE (blade "1" 1) mismatchedBlade =
      Except.ok (alphaLtB (blade "1" 1) mismatchedBlade) :=
  c9_cross_config_comparisons_return_values (blade "1" 1) mismatchedBlade
    (mkTermAlpha (blade "1" 1) defaultConfig)
    (mkTermAlpha mismatchedBlade swappedConfig)
    (by decide) (by decide) (by decide) (by decide) (by decide)

/-- `_div` of `differential.py`: dispatch on the division type (the
explicit argument when given, else the configuration's); `by` divides the
term's blade by the operator blade, `into` divides the operator blade
into it. -/
def divAlphaDir (alpha wrt : Alpha) (cfg : ARConfig) (div : Option String) :
    Except Err Alpha :=
  let d := div.getD cfg.divisionType
  if d = "by" then divByAA alpha wrt cfg
  else if d = "into" then divIntoAA wrt alpha cfg
  else Except.error Err.valueError

/-- `term_partial`: divide the term's signed blade (the `Term.alpha`
property: `_alpha` with the term sign) by the operator blade, store the
result back through the `Term.alpha` setter (sign re-folded onto the
term), then record the differentiation: with a single magnitude token,
`[wrt] + partials` is assigned through the `Xi.partials` setter — which
sorts the list — and otherwise `[wrt] + component_partials` goes through
the `Term.component_partials` setter, which also sorts. -/
def termPartial (t : TermV) (wrt : Alpha) (cfg : ARConfig) (div : Option String) :
    Except Err TermV := do
  let na ← divAlphaDir { t.alpha with sign := t.sign } wrt cfg div
  let na1 : Alpha := { na with sign := 1 }
  match t.components with
  | [x] =>
    let x1 : XiV := { x with partials := sortBy alphaLtB (wrt :: x.partials) }
    pure { t with sign := na.sign, alpha := na1, components := [x1] }
  | _ =>
    let ps := sortBy alphaLtB (wrt :: t.componentPartials)
    pure { t with sign := na.sign, alpha := na1, componentPartials := ps }

/-- The magnitude token of the C7 example: value 0, already carrying the
partial blade 1. -/
def c7xi : XiV :=
  { val := "0", sign := 1, partials := [blade "1" 1], cfg := defaultConfig }

/-- A single-token term whose token already carries the partial blade 1. -/
def c7term : TermV :=
  { alpha := blade "0" 1, sign := 1, components := [c7xi],
    componentPartials := [], cfg := defaultConfig }

/-- The term produced by differentiating `c7term` with respect to blade 2
under the `by` convention. -/
def c7result : TermV :=
  { alpha := blade "02" 1, sign := -1,
    components := [{ c7xi with partials := [blade "1" 1, blade "2" 1] }],
    componentPartials := [], cfg := defaultConfig }

/-- C7 counterexample: differentiating that term with respect to blade 2
yields token partials `[1, 2]` — the sorted insertion — not the claimed
prepended list `[2, 1]`: the `Xi.partials` setter sorts what
`term_partial` assigns. -/
theorem c7_counterexample :
    (termPartial c7term (blade "2" 1) defaultConfig (some "by")).map
        (fun r => r.components.map XiV.partials) =
      Except.ok [[blade "1" 1, blade "2" 1]] ∧
    [[blade "1" 1, blade "2" 1]] ≠ [[blade "2" 1, blade "1" 1]] := by
  decide

/-- C7 (amended): for a term with a single magnitude token, applying the
differential operator with respect to `wrt` re-sorts the prepended list:
the resulting token's partials are `sorted([wrt] + previous)` under the
blade ordering, not `wrt` followed by the previous entries in their prior
order. -/
theorem c7_partials_sorted_insertion (t : TermV) (wrt : Alpha) (cfg : ARConfig)
    (div : Option String) (x : XiV) (r : TermV)
    (hc : t.components = [x]) (h : termPartial t wrt cfg div = Except.ok r) :
    r.components.map XiV.partials = [sortBy alphaLtB (wrt :: x.partials)] := by
  unfold termPartial at h
  rcases hd : divAlphaDir { t.alpha with sign := t.sign } wrt cfg div with e | na
  · rw [hd] at h
    exact Except.noConfusion h
  · rw [hd, hc] at h
    obtain rfl := Except.ok.inj h
    rfl

/-- Witness for C7 (amended) at the counterexample's concrete input. -/
theorem c7_partials_sorted_insertion_witness :
    c7result.components.map XiV.partials =
      [sortBy alphaLtB (blade "2" 1 :: c7xi.partials)] :=
  c7_partials_sorted_insertion c7term (blade "2" 1) defaultConfig (some "by")
    c7xi c7result (by decide) (by decide)

/-- The operand kinds flowing through the expression evaluator
(`AR_differential` operands are a fourth kind no claim exercises; they
are omitted together with the `<...>` literals that produce them). -/
inductive Value where
  | alpha : Alpha → Value
  | term : TermV → Value
  | mvec : MultiVectorV → Value
  deriving DecidableEq, Repr

/-- The `Term.alpha` property: the stored blade with the term's sign. -/
def termAlphaProp (t : TermV) : Alpha := { t.alpha with sign := t.sign }

/-- `_full_alpha_term`. -/
def fullAT (a : Alpha) (u : TermV) (cfg : ARConfig) : Except Err TermV := do
  let na ← findProd a (termAlphaProp u) cfg
  pure (mkTermAC na u.components cfg)

/-- `_full_term_alpha`. -/
def fullTA (u : TermV) (a : Alpha) (cfg : ARConfig) : Except Err TermV := do
  let na ← findProd (termAlphaProp u) a cfg
  pure (mkTermAC na u.components cfg)

/-- `_full_term_term`: blades multiplied, component lists concatenated
left first. -/
def fullTT (u v : TermV) (cfg : ARConfig) : Except Err TermV := do
  let na ← findProd (termAlphaProp u) (termAlphaProp v) cfg
  pure (mkTermAC na (u.components ++ v.components) cfg)

/-- Run a fallible map over a list, collecting the results. -/
def mapExcept (f : α → Except Err β) : List α → Except Err (List β)
  | [] => pure []
  | x :: xs => do pure ((← f x) :: (← mapExcept f xs))

/-- Modelled from the spec: the dispatch mechanism of
`utils/concepts/dispatch.py` is not in the source tree; per the spec each
operator is a table keyed by the concrete pair of operand kinds, and an
unregistered combination fails with an unsupported-operation error
rather than coercing.  The registered pairs below are exactly those of
`full.py`: (Alpha, Alpha), (Alpha, Term), (Term, Alpha), (Term, Term),
(MultiVector, MultiVector), (Alpha, MultiVector), (MultiVector, Alpha);
(Term, MultiVector) and (MultiVector, Term) are unregistered. -/
def fullV (a b : Value) (cfg : ARConfig) : Except Err Value :=
  match a, b with
  | .alpha x, .alpha y => do pure (.alpha (← findProd x y cfg))
  | .alpha x, .term u => do pure (.term (← fullAT x u cfg))
  | .term u, .alpha x => do pure (.term (← fullTA u x cfg))
  | .term u, .term v => do pure (.term (← fullTT u v cfg))
  | .mvec m, .mvec n => do
    let ts ← mapExcept (fun (uv : TermV × TermV) => fullTT uv.1 uv.2 cfg)
      (m.terms.flatMap (fun u => n.terms.map (fun v => (u, v))))
    pure (.mvec (← mkMV ts cfg))
  | .alpha x, .mvec m => do
    let ts ← mapExcept (fun u => fullAT x u cfg) m.terms
    pure (.mvec (← mkMV ts cfg))
  | .mvec m, .alpha x => do
    let ts ← mapExcept (fun u => fullTA u x cfg) m.terms
    pure (.mvec (← mkMV ts cfg))
  | _, _ => throw Err.unsupportedOp

/-- Modelled from the spec (same dispatch mechanism): `div_by` registers
only (Alpha, Alpha) — `_div_by_alpha_alpha` — and (Term, Alpha) —
`_div_by_term_alpha`; every other operand-kind pair, in particular
(Alpha, Term), is an unsupported operation. -/
def divByV (a b : Value) (cfg : ARConfig) : Except Err Value :=
  match a, b with
  | .alpha x, .alpha y => do pure (.alpha (← divByAA x y cfg))
  | .term u, .alpha y => do
    let binv ← inverse y cfg
    let na ← findProd (termAlphaProp u) binv cfg
    pure (.term (mkTermAC na u.components cfg))
  | _, _ => throw Err.unsupportedOp

/-- Modelled from the spec (same dispatch mechanism): `div_into`
registers only (Alpha, Alpha) and (Alpha, Term). -/
def divIntoV (a b : Value) (cfg : ARConfig) : Except Err Value :=
  match a, b with
  | .alpha x, .alpha y => do pure (.alpha (← divIntoAA x y cfg))
  | .alpha x, .term u => do
    let xinv ← inverse x cfg
    let na ← findProd xinv (termAlphaProp u) cfg
    pure (.term (mkTermAC na u.components cfg))
  | _, _ => throw Err.unsupportedOp

/-- `MultiVector.__add__` (the `+` binop calls `operator.add`): terms are
concatenated and re-validated under the left operand's configuration;
adding anything but a Term or MultiVector raises TypeError, as does a
left operand that is not a MultiVector. -/
def addV (a b : Value) : Except Err Value :=
  match a, b with
  | .mvec m, .mvec n => do pure (.mvec (← mkMV (m.terms ++ n.terms) m.cfg))
  | .mvec m, .term t => do pure (.mvec (← mkMV (m.terms ++ [t]) m.cfg))
  | _, _ => throw Err.typeError

/-- The token stream of the lexer, restricted to the tags the claims
exercise; tags whose lexing is not modelled (set literals, differential
literals, variables, `!`, `<`, `>`, `[`, `]`) make the lexer fail
instead. -/
inductive Token where
  | expr : Value → Token
  | index : Nat → Token
  | parenOpen : Token
  | parenClose : Token
  | plus : Token
  | minus : Token
  | comma : Token
  | dot : Token
  | fullOp : Token
  | byOp : Token
  | intoOp : Token
  deriving DecidableEq, Repr

def isDigit0123 (c : Char) : Bool := c ∈ ['0', '1', '2', '3']

/-- `ArpyLexer.lex` over the modelled tags: at each position the tag
patterns are tried in the source's order — signed blade literals
(`-?a[0123]{1,4}|-?ap`, digits greedy up to four), signed pure-term
literals (`-?p[0123]{1,4}`), bare indices `[01234]`, then the
single-character literal tokens; characters matching no pattern (spaces)
are skipped as `finditer` does.  Blade and term construction validates
indices against the configuration and its errors propagate, as in the
source. -/
def lexToks (cfg : ARConfig) : Nat → List Char → Except Err (List Token)
  | _, [] => pure []
  | 0, _ => throw Err.outOfFuel
  | fuel + 1, c :: rest =>
    if c = ' ' then lexToks cfg fuel rest
    else if c = 'a' ∨ (c = '-' ∧ rest.head? = some 'a') then
      let (sign, rest') : Int × List Char :=
        if c = '-' then (-1, rest.tail) else (1, rest)
      if rest'.head? = some 'p' then do
        let a ← mkAlpha "p" sign cfg
        pure ((Token.expr (Value.alpha a)) :: (← lexToks cfg fuel rest'.tail))
      else
        let ds := (rest'.takeWhile isDigit0123).take 4
        if ds.isEmpty then throw Err.valueError
        else do
          let a ← mkAlpha ⟨ds⟩ sign cfg
          let toks ← lexToks cfg fuel (rest'.drop ds.length)
          pure ((Token.expr (Value.alpha a)) :: toks)
    else if c = 'p' ∨ (c = '-' ∧ rest.head? = some 'p') then
      let (sign, rest') : Int × List Char :=
        if c = '-' then (-1, rest.tail) else (1, rest)
      let ds := (rest'.takeWhile isDigit0123).take 4
      if ds.isEmpty then throw Err.valueError
      else do
        let a ← mkAlpha ⟨ds⟩ sign cfg
        let toks ← lexToks cfg fuel (rest'.drop ds.length)
        pure ((Token.expr (Value.term (mkTermAlpha a cfg))) :: toks)
    else if c ∈ ['0', '1', '2', '3', '4'] then do
      pure ((Token.index (c.toNat - '0'.toNat)) :: (← lexToks cfg fuel rest))
    else
      let lit : Except Err Token :=
        if c = '(' then pure Token.parenOpen
        else if c = ')' then pure Token.parenClose
        else if c = '+' then pure Token.plus
        else if c = '-' then pure Token.minus
        else if c = ',' then pure Token.comma
        else if c = '.' then pure Token.dot
        else if c = '^' then pure Token.fullOp
        else if c = '/' then pure Token.byOp
        else if c = '\\' then pure Token.intoOp
        else throw Err.valueError
      do pure ((← lit) :: (← lexToks cfg fuel rest))

/-- `ArpyParser.sub_expr`: pull tokens until the delimiter; a missing
delimiter is an AR_Error (surfaced as `none` by the caller). -/
def splitUntil (tag : Token) : List Token → Option (List Token × List Token)
  | [] => none
  | t :: rest =>
    if t = tag then some ([], rest)
    else (splitUntil tag rest).map (fun p => (t :: p.1, p.2))

/-- The binop table of `ArpyParser` (`^` full, `/` divide-by, `\`
divide-into, `+` `operator.add`). -/
def applyBinop (t : Token) (a b : Value) (cfg : ARConfig) : Except Err Value :=
  match t with
  | .byOp => divByV a b cfg
  | .intoOp => divIntoV a b cfg
  | .fullOp => fullV a b cfg
  | .plus => addV a b
  | _ => throw Err.valueError

/-- `ArpyParser.parse` over the modelled tokens, with the shared token
iterator made explicit (a recursive call consumes the whole remaining
stream, as the source's does, unless it returns early through the
invalid-input branch — which yields `none` and stops the caller too).
`Except.error` models exceptions that escape `parse` (the dispatch
NotImplementedError among them); `Option.none` models its printed-error
`None` returns (AR_Error and invalid input).  The fuel exceeds the token
count, which bounds the iteration. -/
def parseLoop (cfg : ARConfig) : Nat → List Token → Option Value →
    Except Err (Option Value)
  | 0, _, _ => throw Err.outOfFuel
  | _ + 1, [], prev => pure prev
  | fuel + 1, t :: rest, prev =>
    match t with
    | .expr v =>
      match prev with
      | some p => do
        let r ← fullV p v cfg
        parseLoop cfg fuel rest (some r)
      | none => parseLoop cfg fuel rest (some v)
    | .parenOpen =>
      match splitUntil Token.parenClose rest with
      | none => pure none
      | some (sub, rest') => do
        match ← parseLoop cfg fuel sub none with
        | none =>
          match prev with
          | some _ => throw Err.typeError
          | none => parseLoop cfg fuel rest' none
        | some v =>
          match prev with
          | some p => do
            let r ← fullV p v cfg
            parseLoop cfg fuel rest' (some r)
          | none => parseLoop cfg fuel rest' (some v)
    | .byOp | .intoOp | .fullOp | .plus =>
      match prev with
      | none => pure none
      | some lhs => do
        match ← parseLoop cfg fuel rest none with
        | none => pure none
        | some r => do
          let v ← applyBinop t lhs r cfg
          parseLoop cfg fuel [] (some v)
    | _ => pure none

/-- `ARContext.__call__` without the variable-injection hack: lex, parse,
unwrap.  Exceptions other than AR_Error propagate to the caller. -/
def evalText (s : String) (cfg : ARConfig) : Except Err (Option Value) := do
  let toks ← lexToks cfg (s.data.length + 1) s.data
  parseLoop cfg (toks.length + 1) toks none

/-- C8: evaluating the text `a1 / p2` fails with the unsupported-operation
error: the lexed operands are a Blade and a Term, and the divide-by
dispatch table has no entry for that kind pair. -/
theorem c8_blade_divided_by_term_unsupported :
    evalText "a1 / p2" defaultConfig = Except.error Err.unsupportedOp ∧
    divByV (Value.alpha (blade "1" 1))
      (Value.term (mkTermAlpha (blade "2" 1) defaultConfig)) defaultConfig =
      Except.error Err.unsupportedOp := by
  decide

/-! ## `MultiVector.cancel_terms`

The source iterates over the sorted term list maintaining `seen`, a dict
from a representative term to the list of equal terms collected so far;
a term whose negation is a key cancels one element of that key's bucket
(deleting the bucket when it empties), otherwise the term joins its own
bucket.  The final term list is the sorted concatenation of the bucket
values in insertion order. -/

/-- One bucket update for a term whose negation is already a key:
`if len(seen[neg]) == 1: del seen[neg] else: seen[neg] = seen[neg][1:]`
(dict keys are unique up to `Term.__eq__`, so the first match is the
match). -/
def seenCancel (neg : TermV) : List (TermV × List TermV) → List (TermV × List TermV)
  | [] => []
  | kv :: rest =>
    if termEq kv.1 neg then
      if kv.2.length == 1 then rest else (kv.1, kv.2.drop 1) :: rest
    else kv :: seenCancel neg rest

/-- `seen[term].append(term)`: append to the existing equal-keyed bucket,
or create a fresh bucket at the end (defaultdict insertion order). -/
def seenAppend (term : TermV) : List (TermV × List TermV) → List (TermV × List TermV)
  | [] => [(term, [term])]
  | kv :: rest =>
    if termEq kv.1 term then (kv.1, kv.2 ++ [term]) :: rest
    else kv :: seenAppend term rest

/-- One loop iteration of `cancel_terms`. -/
def seenStep (seen : List (TermV × List TermV)) (term : TermV) :
    List (TermV × List TermV) :=
  if seen.any (fun kv => termEq kv.1 (negTerm term)) then
    seenCancel (negTerm term) seen
  else seenAppend term seen

/-- The `seen` dict after the loop. -/
def buildSeen (l : List TermV) : List (TermV × List TermV) :=
  l.foldl seenStep []

/-- `sum(seen.values(), [])`. -/
def flattenSeen (seen : List (TermV × List TermV)) : List TermV :=
  (seen.map Prod.snd).flatten

/-- `MultiVector.cancel_terms` on the term list: build `seen` from the
sorted terms, then store the sorted concatenation of the buckets. -/
def cancelTerms (l : List TermV) : List TermV :=
  sortBy termLt (flattenSeen (buildSeen (sortBy termLt l)))

/-- `cancel_terms` on the multivector (it mutates and returns `self`). -/
def cancelTermsMV (m : MultiVectorV) : MultiVectorV :=
  { m with terms := cancelTerms m.terms }

/-! ### A boolean strict linear order toolkit

`Term.__lt__` under a single configuration factors through a key
function into nested lexicographic orders on naturals, integers, pairs
and lists; the toolkit below packages the order laws used. -/

/-- A decidable strict linear order given as a boolean comparison. -/
structure StrictLinearB (lt : α → α → Bool) : Prop where
  irrefl : ∀ a, lt a a = false
  asymmB : ∀ a b, lt a b = true → lt b a = false
  transB : ∀ a b c, lt a b = true → lt b c = true → lt a c = true
  connex : ∀ a b, lt a b = false → lt b a = false → a = b

theorem StrictLinearB.negTransB {lt : α → α → Bool} (h : StrictLinearB lt)
    (a b c : α) (hab : lt a b = false) (hbc : lt b c = false) :
    lt a c = false := by
  by_cases hba : lt b a = true
  · by_cases hcb : lt c b = true
    · have hca := h.transB c b a hcb hba
      exact h.asymmB c a hca
    · have := h.connex b c hbc (Bool.not_eq_true _ ▸ hcb)
      subst this
      exact h.asymmB b a hba
  · have := h.connex a b hab (Bool.not_eq_true _ ▸ hba)
    subst this
    exact hbc

def natLtB (a b : Nat) : Bool := decide (a < b)

def intLtB (a b : Int) : Bool := decide (a < b)

theorem natLtB_sl : StrictLinearB natLtB := by
  constructor
  · intro a; simp [natLtB]
  · intro a b hh; simp [natLtB] at *; omega
  · intro a b c h1 h2; simp [natLtB] at *; omega
  · intro a b h1 h2; simp [natLtB] at *; omega

theorem intLtB_sl : StrictLinearB intLtB := by
  constructor
  · intro a; simp [intLtB]
  · intro a b hh; simp [intLtB] at *; omega
  · intro a b c h1 h2; simp [intLtB] at *; omega
  · intro a b h1 h2; simp [intLtB] at *; omega

/-- Lexicographic order on a pair from orders on the factors. -/
def prodLtB [DecidableEq α] (lt1 : α → α → Bool) (lt2 : β → β → Bool)
    (x y : α × β) : Bool :=
  if x.1 = y.1 then lt2 x.2 y.2 else lt1 x.1 y.1

theorem prodLtB_sl [DecidableEq α] {lt1 : α → α → Bool} {lt2 : β → β → Bool}
    (h1 : StrictLinearB lt1) (h2 : StrictLinearB lt2) :
    StrictLinearB (prodLtB lt1 lt2) := by
  constructor
  · intro a
    simp [prodLtB, h2.irrefl]
  · intro a b hab
    unfold prodLtB at *
    by_cases he : a.1 = b.1
    · rw [if_pos he] at hab
      rw [if_pos he.symm]
      exact h2.asymmB _ _ hab
    · rw [if_neg he] at hab
      rw [if_neg (fun hh => he hh.symm)]
      exact h1.asymmB _ _ hab
  · intro a b c hab hbc
    unfold prodLtB at *
    by_cases hab1 : a.1 = b.1
    · rw [if_pos hab1] at hab
      by_cases hbc1 : b.1 = c.1
      · rw [if_pos hbc1] at hbc
        rw [if_pos (hab1.trans hbc1)]
        exact h2.transB _ _ _ hab hbc
      · rw [if_neg hbc1] at hbc
        rw [if_neg (fun hh => hbc1 (hab1 ▸ hh))]
        exact hab1 ▸ hbc
    · rw [if_neg hab1] at hab
      by_cases hbc1 : b.1 = c.1
      · rw [if_neg (fun hh => hab1 (hbc1 ▸ hh))]
        exact hbc1 ▸ hab
      · rw [if_neg hbc1] at hbc
        have hac1 : a.1 ≠ c.1 := by
          intro hh
          have := h1.transB _ _ _ hab hbc
          rw [hh] at this
          exact absurd this (by simpa using h1.irrefl c.1)
        rw [if_neg hac1]
        exact h1.transB _ _ _ hab hbc
  · intro a b hab hba
    unfold prodLtB at *
    by_cases he : a.1 = b.1
    · rw [if_pos he] at hab
      rw [if_pos he.symm] at hba
      have := h2.connex _ _ hab hba
      exact Prod.ext he this
    · rw [if_neg he] at hab
      rw [if_neg (fun hh => he hh.symm)] at hba
      exact absurd (h1.connex _ _ hab hba) he

/-- Python list `<` with structural equality at each position: the strict
lexicographic order induced on lists. -/
def listLtB [DecidableEq α] (lt : α → α → Bool) (as bs : List α) : Bool :=
  pyListLt (fun a b => decide (a = b)) lt as bs

theorem listLtB_cons [DecidableEq α] (lt : α → α → Bool) (x y : α)
    (xs ys : List α) :
    listLtB lt (x :: xs) (y :: ys) =
      if x = y then listLtB lt xs ys else lt x y := by
  by_cases he : x = y
  · simp [listLtB, pyListLt, he]
  · simp [listLtB, pyListLt, he]

theorem listLtB_sl [DecidableEq α] {lt : α → α → Bool}
    (h : StrictLinearB lt) : StrictLinearB (listLtB lt) := by
  constructor
  · intro a
    induction a with
    | nil => rfl
    | cons x xs ih => simpa [listLtB_cons] using ih
  · intro a
    induction a with
    | nil => intro b hab; cases b <;> simp_all [listLtB, pyListLt]
    | cons x xs ih =>
      intro b hab
      cases b with
      | nil => simp [listLtB, pyListLt] at hab
      | cons y ys =>
        rw [listLtB_cons] at hab
        rw [listLtB_cons]
        by_cases he : x = y
        · subst he
          rw [if_pos rfl] at hab
          rw [if_pos rfl]
          exact ih ys hab
        · rw [if_neg he] at hab
          rw [if_neg (Ne.symm he)]
          exact h.asymmB _ _ hab
  · intro a
    induction a with
    | nil =>
      intro b c hab hbc
      cases b <;> cases c <;> simp_all [listLtB, pyListLt]
    | cons x xs ih =>
      intro b c hab hbc
      cases b with
      | nil => simp [listLtB, pyListLt] at hab
      | cons y ys =>
        cases c with
        | nil => simp [listLtB, pyListLt] at hbc
        | cons z zs =>
          rw [listLtB_cons] at hab hbc ⊢
          by_cases hxy : x = y
          · subst hxy
            rw [if_pos rfl] at hab
            by_cases hyz : x = z
            · subst hyz
              rw [if_pos rfl] at hbc
              rw [if_pos rfl]
              exact ih ys zs hab hbc
            · rw [if_neg hyz] at hbc
              rw [if_neg hyz]
              exact hbc
          · rw [if_neg hxy] at hab
            by_cases hyz : y = z
            · subst hyz
              rw [if_neg hxy]
              exact hab
            · rw [if_neg hyz] at hbc
              have hxz : x ≠ z := by
                intro hh
                subst hh
                have := h.transB _ _ _ hab hbc
                have hirr := h.irrefl x
                rw [this] at hirr
                exact Bool.noConfusion hirr
              rw [if_neg hxz]
              exact h.transB _ _ _ hab hbc
  · intro a
    induction a with
    | nil =>
      intro b hab hba
      cases b <;> simp_all [listLtB, pyListLt]
    | cons x xs ih =>
      intro b hab hba
      cases b with
      | nil => simp [listLtB, pyListLt] at hba
      | cons y ys =>
        rw [listLtB_cons] at hab hba
        by_cases he : x = y
        · subst he
          rw [if_pos rfl] at hab hba
          rw [ih ys hab hba]
        · rw [if_neg he] at hab
          rw [if_neg (Ne.symm he)] at hba
          exact absurd (h.connex _ _ hab hba) he

/-! ### Well-formed terms of a single configuration

`Term.__lt__` and `Term.__eq__` read each operand's own stored
configuration data, and the source's `sorted` is only a well-defined
stable sort when the comparison is a strict weak order.  Both hold for
the terms the library itself builds under one configuration: blades are
sign-normalised onto the term, every index occurs in the configuration's
lists (so no comparison raises), magnitude values are blade labels, and
partial blades are positive.  `WFTerm` captures exactly that scope. -/

def WFAlphaP (c : ARConfig) (p : Alpha) : Prop :=
  p.sign = 1 ∧ p.allowed = c.allowed ∧ p.allowedGroups = c.allowedGroups ∧
  p.index ∈ c.allowed ++ c.allowedGroups

def WFXi (c : ARConfig) (x : XiV) : Prop :=
  x.cfg = c ∧ x.val ∈ c.allowed ∧ ∀ p ∈ x.partials, WFAlphaP c p

def WFTerm (c : ARConfig) (t : TermV) : Prop :=
  t.cfg = c ∧ WFAlphaP c t.alpha ∧ t.sign ≠ 0 ∧
  (∀ x ∈ t.components, WFXi c x) ∧ ∀ p ∈ t.componentPartials, WFAlphaP c p

instance (c : ARConfig) (p : Alpha) : Decidable (WFAlphaP c p) := by
  unfold WFAlphaP; infer_instance

instance (c : ARConfig) (x : XiV) : Decidable (WFXi c x) := by
  unfold WFXi; infer_instance

instance (c : ARConfig) (t : TermV) : Decidable (WFTerm c t) := by
  unfold WFTerm; infer_instance

/-- The sort key a well-formed term's comparisons factor through. -/
abbrev XiKey := Nat × List Nat × Int

abbrev TermKey := Nat × List XiKey

def alphaPos (c : ARConfig) (a : Alpha) : Nat :=
  posOf a.index (c.allowed ++ c.allowedGroups)

def xiKey (c : ARConfig) (x : XiV) : XiKey :=
  (posOf x.val c.allowed, x.partials.map (alphaPos c), x.sign)

def termKey (c : ARConfig) (t : TermV) : TermKey :=
  (alphaPos c t.alpha, (sortBy xiLt t.components).map (xiKey c))

def xiKeyLt : XiKey → XiKey → Bool :=
  prodLtB natLtB (prodLtB (listLtB natLtB) intLtB)

def termKeyLt : TermKey → TermKey → Bool :=
  prodLtB natLtB (listLtB xiKeyLt)

theorem xiKeyLt_sl : StrictLinearB xiKeyLt :=
  prodLtB_sl natLtB_sl (prodLtB_sl (listLtB_sl natLtB_sl) intLtB_sl)

theorem termKeyLt_sl : StrictLinearB termKeyLt :=
  prodLtB_sl natLtB_sl (listLtB_sl xiKeyLt_sl)

theorem aeqB_iff_pos {c : ARConfig} {p q : Alpha} (hp : WFAlphaP c p)
    (hq : WFAlphaP c q) :
    (aeqB p q = true) ↔ alphaPos c p = alphaPos c q := by
  simp only [aeqB, Bool.and_eq_true, beq_iff_eq, hp.1, hq.1, and_true]
  constructor
  · intro h
    rw [alphaPos, alphaPos, h]
  · intro h
    exact posOf_inj hp.2.2.2 hq.2.2.2 h

theorem alphaLtB_eq_key {c : ARConfig} {p : Alpha} (q : Alpha)
    (hp : WFAlphaP c p) :
    alphaLtB p q = natLtB (alphaPos c p) (alphaPos c q) := by
  simp only [alphaLtB, natLtB, alphaPos, hp.2.1, hp.2.2.1]

theorem listEqBy_iff_map {γ : Type} [DecidableEq γ] (f : α → α → Bool)
    (g : α → γ) (P : α → Prop)
    (hfg : ∀ a b, P a → P b → ((f a b = true) ↔ g a = g b)) :
    ∀ as bs, (∀ a ∈ as, P a) → (∀ b ∈ bs, P b) →
      ((listEqBy f as bs = true) ↔ as.map g = bs.map g)
  | [], [] => by simp [listEqBy]
  | [], _ :: _ => by simp [listEqBy]
  | _ :: _, [] => by simp [listEqBy]
  | a :: as, b :: bs => by
    intro ha hb
    simp only [listEqBy, Bool.and_eq_true, List.map_cons, List.cons.injEq]
    rw [hfg a b (ha a (List.mem_cons_self a _)) (hb b (List.mem_cons_self b _)),
        listEqBy_iff_map f g P hfg as bs
          (fun x hx => ha x (List.mem_cons_of_mem a hx))
          (fun x hx => hb x (List.mem_cons_of_mem b hx))]

theorem pyListLt_eq_map {γ : Type} [DecidableEq γ] (f lt : α → α → Bool)
    (g : α → γ) (ltg : γ → γ → Bool) (P : α → Prop)
    (hf : ∀ a b, P a → P b → ((f a b = true) ↔ g a = g b))
    (hlt : ∀ a b, P a → P b → lt a b = ltg (g a) (g b)) :
    ∀ as bs, (∀ a ∈ as, P a) → (∀ b ∈ bs, P b) →
      pyListLt f lt as bs = listLtB ltg (as.map g) (bs.map g)
  | [], [] => by simp [pyListLt, listLtB]
  | [], _ :: _ => by simp [pyListLt, listLtB]
  | _ :: _, [] => by simp [pyListLt, listLtB]
  | a :: as, b :: bs => by
    intro ha hb
    have hpa : P a := ha a (List.mem_cons_self a _)
    have hpb : P b := hb b (List.mem_cons_self b _)
    simp only [pyListLt, List.map_cons, listLtB_cons]
    by_cases he : g a = g b
    · rw [if_pos ((hf a b hpa hpb).mpr he), if_pos he]
      exact pyListLt_eq_map f lt g ltg P hf hlt as bs
        (fun x hx => ha x (List.mem_cons_of_mem a hx))
        (fun x hx => hb x (List.mem_cons_of_mem b hx))
    · rw [if_neg (fun hh => he ((hf a b hpa hpb).mp hh)), if_neg he]
      exact hlt a b hpa hpb

theorem xiEq_iff_key {c : ARConfig} {x y : XiV} (hx : WFXi c x)
    (hy : WFXi c y) : (xiEq x y = true) ↔ xiKey c x = xiKey c y := by
  have hparts := listEqBy_iff_map aeqB (alphaPos c) (WFAlphaP c)
    (fun a b hpa hpb => aeqB_iff_pos hpa hpb) x.partials y.partials
    hx.2.2 hy.2.2
  simp only [xiEq, Bool.and_eq_true, beq_iff_eq, xiKey, Prod.mk.injEq]
  constructor
  · rintro ⟨⟨hval, hp⟩, hs⟩
    exact ⟨by rw [hval], hparts.mp hp, hs⟩
  · rintro ⟨hpos, hp, hs⟩
    exact ⟨⟨posOf_inj hx.2.1 hy.2.1 hpos, hparts.mpr hp⟩, hs⟩

theorem xiLt_eq_key {c : ARConfig} {x y : XiV} (hx : WFXi c x)
    (hy : WFXi c y) : xiLt x y = xiKeyLt (xiKey c x) (xiKey c y) := by
  have hmem : x.val ∈ x.cfg.allowed ∧ y.val ∈ x.cfg.allowed := by
    rw [hx.1]
    exact ⟨hx.2.1, hy.2.1⟩
  have hparts := listEqBy_iff_map aeqB (alphaPos c) (WFAlphaP c)
    (fun a b hpa hpb => aeqB_iff_pos hpa hpb) x.partials y.partials
    hx.2.2 hy.2.2
  unfold xiLt xiKeyLt
  rw [if_neg (not_not_intro hmem)]
  by_cases hv : x.val = y.val
  · rw [if_neg (not_not_intro hv)]
    have hk1 : (xiKey c x).1 = (xiKey c y).1 := by
      simp only [xiKey]
      rw [hv]
    unfold prodLtB
    by_cases hps : listEqBy aeqB x.partials y.partials = true
    · rw [if_neg (not_not_intro hps)]
      have hk2 : (xiKey c x).2.1 = (xiKey c y).2.1 := by
        simpa [xiKey] using hparts.mp hps
      rw [if_pos hk1, if_pos hk2]
      rfl
    · rw [if_pos (by simpa using hps)]
      have hk2 : (xiKey c x).2.1 ≠ (xiKey c y).2.1 := by
        simp only [xiKey]
        exact fun hh => hps (hparts.mpr hh)
      rw [if_pos hk1, if_neg hk2]
      have := pyListLt_eq_map aeqB alphaLtB (alphaPos c) natLtB (WFAlphaP c)
        (fun a b hpa hpb => aeqB_iff_pos hpa hpb)
        (fun a b hpa _ => alphaLtB_eq_key b hpa)
        x.partials y.partials hx.2.2 hy.2.2
      simpa [xiKey] using this
  · rw [if_pos hv]
    have hk1 : (xiKey c x).1 ≠ (xiKey c y).1 := by
      simp only [xiKey]
      exact fun hh => hv (posOf_inj hx.2.1 hy.2.1 hh)
    unfold prodLtB
    rw [if_neg hk1]
    simp only [xiKey, natLtB, hx.1]

theorem termLt_eq_key {c : ARConfig} {t u : TermV} (ht : WFTerm c t)
    (hu : WFTerm c u) :
    termLt t u = termKeyLt (termKey c t) (termKey c u) := by
  have htc : ∀ x ∈ sortBy xiLt t.components, WFXi c x :=
    fun x hx => ht.2.2.2.1 x (mem_sortBy.mp hx)
  have huc : ∀ x ∈ sortBy xiLt u.components, WFXi c x :=
    fun x hx => hu.2.2.2.1 x (mem_sortBy.mp hx)
  unfold termLt termKeyLt prodLtB
  by_cases hab : aeqB t.alpha u.alpha = true
  · rw [if_neg (not_not_intro hab)]
    have hk1 : (termKey c t).1 = (termKey c u).1 := by
      simpa [termKey] using (aeqB_iff_pos ht.2.1 hu.2.1).mp hab
    rw [if_pos hk1]
    have := pyListLt_eq_map xiEq xiLt (xiKey c) xiKeyLt (WFXi c)
      (fun a b hpa hpb => xiEq_iff_key hpa hpb)
      (fun a b hpa hpb => xiLt_eq_key hpa hpb)
      (sortBy xiLt t.components) (sortBy xiLt u.components) htc huc
    simpa [termKey] using this
  · rw [if_pos (by simpa using hab)]
    have hk1 : (termKey c t).1 ≠ (termKey c u).1 := by
      simp only [termKey]
      exact fun hh => hab ((aeqB_iff_pos ht.2.1 hu.2.1).mpr hh)
    rw [if_neg hk1]
    simpa [termKey] using alphaLtB_eq_key u.alpha ht.2.1

theorem termEq_key {c : ARConfig} {t u : TermV} (ht : WFTerm c t)
    (hu : WFTerm c u) (h : termEq t u = true) :
    termKey c t = termKey c u := by
  have htc : ∀ x ∈ sortBy xiLt t.components, WFXi c x :=
    fun x hx => ht.2.2.2.1 x (mem_sortBy.mp hx)
  have huc : ∀ x ∈ sortBy xiLt u.components, WFXi c x :=
    fun x hx => hu.2.2.2.1 x (mem_sortBy.mp hx)
  simp only [termEq, Bool.and_eq_true] at h
  obtain ⟨⟨⟨⟨_, hab⟩, _⟩, hcomps⟩, _⟩ := h
  unfold termKey
  refine Prod.ext ((aeqB_iff_pos ht.2.1 hu.2.1).mp hab) ?_
  exact (listEqBy_iff_map xiEq (xiKey c) (WFXi c)
    (fun a b hpa hpb => xiEq_iff_key hpa hpb)
    (sortBy xiLt t.components) (sortBy xiLt u.components) htc huc).mp hcomps

/-! ### Sorting lemmas

The pipeline facts about `sortBy`: it permutes, it yields a list that is
pairwise non-descending, and it fixes such lists.  Asymmetry and negative
transitivity are taken as hypotheses on the elements at hand. -/

theorem mem_insertBy {lt : α → α → Bool} {x y : α} {l : List α} :
    y ∈ insertBy lt x l ↔ y = x ∨ y ∈ l := by
  rw [(insertBy_perm lt x l).mem_iff, List.mem_cons]

theorem sortBy_eq_self {lt : α → α → Bool} {l : List α}
    (h : l.Pairwise (fun a b => lt b a = false)) : sortBy lt l = l := by
  induction l with
  | nil => rfl
  | cons x xs ih =>
    have hx := List.pairwise_cons.mp h
    rw [sortBy, ih hx.2]
    cases xs with
    | nil => rfl
    | cons y ys =>
      rw [insertBy, if_neg (by simp [hx.1 y (List.mem_cons_self y ys)])]

theorem insertBy_pairwise (lt : α → α → Bool) (P : α → Prop)
    (hAsym : ∀ a b, P a → P b → lt a b = true → lt b a = false)
    (hNT : ∀ a b c, P a → P b → P c →
      lt a b = false → lt b c = false → lt a c = false)
    {x : α} (hPx : P x) :
    ∀ {l : List α}, (∀ y ∈ l, P y) →
      l.Pairwise (fun a b => lt b a = false) →
      (insertBy lt x l).Pairwise (fun a b => lt b a = false) := by
  intro l
  induction l with
  | nil =>
    intro _ _
    simp [insertBy]
  | cons y ys ih =>
    intro hPl h
    have hy := List.pairwise_cons.mp h
    rw [insertBy]
    by_cases hyx : lt y x = true
    · rw [if_pos hyx]
      refine List.pairwise_cons.mpr ⟨?_, ?_⟩
      · intro z hz
        rcases mem_insertBy.mp hz with rfl | hz
        · exact hAsym y z (hPl y (List.mem_cons_self y ys)) hPx hyx
        · exact hy.1 z hz
      · exact ih (fun z hz => hPl z (List.mem_cons_of_mem y hz)) hy.2
    · rw [if_neg hyx]
      refine List.pairwise_cons.mpr ⟨?_, h⟩
      intro z hz
      rcases List.mem_cons.mp hz with rfl | hz
      · exact Bool.not_eq_true _ ▸ hyx
      · exact hNT z y x (hPl z (List.mem_cons_of_mem y hz))
          (hPl y (List.mem_cons_self y ys)) hPx (hy.1 z hz)
          (Bool.not_eq_true _ ▸ hyx)

theorem sortBy_pairwise (lt : α → α → Bool) (P : α → Prop)
    (hAsym : ∀ a b, P a → P b → lt a b = true → lt b a = false)
    (hNT : ∀ a b c, P a → P b → P c →
      lt a b = false → lt b c = false → lt a c = false)
    {l : List α} (hPl : ∀ y ∈ l, P y) :
    (sortBy lt l).Pairwise (fun a b => lt b a = false) := by
  induction l with
  | nil => exact List.Pairwise.nil
  | cons x xs ih =>
    rw [sortBy]
    exact insertBy_pairwise lt P hAsym hNT (hPl x (List.mem_cons_self x xs))
      (fun y hy => hPl y (List.mem_cons_of_mem x (mem_sortBy.mp hy)))
      (ih (fun y hy => hPl y (List.mem_cons_of_mem x hy)))

/-! ### Order and equality laws of the term comparisons -/

theorem aeqB_refl (a : Alpha) : aeqB a a = true := by simp [aeqB]

theorem listEqBy_refl {f : α → α → Bool} (hf : ∀ a, f a a = true) :
    ∀ l, listEqBy f l l = true
  | [] => rfl
  | x :: xs => by simp [listEqBy, hf x, listEqBy_refl hf xs]

theorem xiEq_refl (x : XiV) : xiEq x x = true := by
  simp [xiEq, listEqBy_refl aeqB_refl]

theorem pyListLt_self {f lt : α → α → Bool} (hf : ∀ a, f a a = true) :
    ∀ l, pyListLt f lt l l = false
  | [] => rfl
  | x :: xs => by simp [pyListLt, hf x, pyListLt_self hf xs]

theorem termLt_irrefl (t : TermV) : termLt t t = false := by
  simp [termLt, aeqB_refl, pyListLt_self xiEq_refl]

theorem termLt_asymm {c : ARConfig} {t u : TermV} (ht : WFTerm c t)
    (hu : WFTerm c u) (h : termLt t u = true) : termLt u t = false := by
  rw [termLt_eq_key hu ht]
  rw [termLt_eq_key ht hu] at h
  exact termKeyLt_sl.asymmB _ _ h

theorem termLt_negTrans {c : ARConfig} {t u v : TermV} (ht : WFTerm c t)
    (hu : WFTerm c u) (hv : WFTerm c v) (h1 : termLt t u = false)
    (h2 : termLt u v = false) : termLt t v = false := by
  rw [termLt_eq_key ht hu] at h1
  rw [termLt_eq_key hu hv] at h2
  rw [termLt_eq_key ht hv]
  exact termKeyLt_sl.negTransB _ _ _ h1 h2

theorem termLt_congL {c : ARConfig} {t u v : TermV} (ht : WFTerm c t)
    (hu : WFTerm c u) (hv : WFTerm c v) (he : termEq t u = true) :
    termLt t v = termLt u v := by
  rw [termLt_eq_key ht hv, termLt_eq_key hu hv, termEq_key ht hu he]

theorem termLt_congR {c : ARConfig} {t u v : TermV} (ht : WFTerm c t)
    (hu : WFTerm c u) (hv : WFTerm c v) (he : termEq t u = true) :
    termLt v t = termLt v u := by
  rw [termLt_eq_key hv ht, termLt_eq_key hv hu, termEq_key ht hu he]

theorem aeqB_symm {a b : Alpha} (h : aeqB a b = true) : aeqB b a = true := by
  simp only [aeqB, Bool.and_eq_true, beq_iff_eq] at *
  exact ⟨h.1.symm, h.2.symm⟩

theorem aeqB_trans {a b d : Alpha} (h1 : aeqB a b = true)
    (h2 : aeqB b d = true) : aeqB a d = true := by
  simp only [aeqB, Bool.and_eq_true, beq_iff_eq] at *
  exact ⟨h1.1.trans h2.1, h1.2.trans h2.2⟩

theorem listEqBy_symm (f : α → α → Bool)
    (hf : ∀ a b, f a b = true → f b a = true) :
    ∀ as bs, listEqBy f as bs = true → listEqBy f bs as = true := by
  intro as
  induction as with
  | nil =>
    intro bs h
    cases bs with
    | nil => exact h
    | cons b bs => simp [listEqBy] at h
  | cons a as ih =>
    intro bs h
    cases bs with
    | nil => simp [listEqBy] at h
    | cons b bs =>
      simp only [listEqBy, Bool.and_eq_true] at *
      exact ⟨hf a b h.1, ih bs h.2⟩

theorem listEqBy_trans (f : α → α → Bool)
    (hf : ∀ a b d, f a b = true → f b d = true → f a d = true) :
    ∀ as bs cs, listEqBy f as bs = true → listEqBy f bs cs = true →
      listEqBy f as cs = true := by
  intro as
  induction as with
  | nil =>
    intro bs cs h1 h2
    cases bs with
    | nil => exact h2
    | cons b bs => simp [listEqBy] at h1
  | cons a as ih =>
    intro bs cs h1 h2
    cases bs with
    | nil => simp [listEqBy] at h1
    | cons b bs =>
      cases cs with
      | nil => simp [listEqBy] at h2
      | cons d cs =>
        simp only [listEqBy, Bool.and_eq_true] at *
        exact ⟨hf a b d h1.1 h2.1, ih bs cs h1.2 h2.2⟩

theorem xiEq_symm {x y : XiV} (h : xiEq x y = true) : xiEq y x = true := by
  simp only [xiEq, Bool.and_eq_true, beq_iff_eq] at *
  exact ⟨⟨h.1.1.symm, listEqBy_symm aeqB (fun a b h => aeqB_symm h) _ _ h.1.2⟩, h.2.symm⟩

theorem xiEq_trans {x y z : XiV} (h1 : xiEq x y = true)
    (h2 : xiEq y z = true) : xiEq x z = true := by
  simp only [xiEq, Bool.and_eq_true, beq_iff_eq] at *
  exact ⟨⟨h1.1.1.trans h2.1.1,
    listEqBy_trans aeqB (fun a b d h1 h2 => aeqB_trans h1 h2) _ _ _ h1.1.2 h2.1.2⟩,
    h1.2.trans h2.2⟩

theorem termEq_symm {t u : TermV} (h : termEq t u = true) :
    termEq u t = true := by
  simp only [termEq, Bool.and_eq_true, beq_iff_eq, cfgEq] at *
  obtain ⟨⟨⟨⟨h1, h2⟩, h3⟩, h4⟩, h5⟩ := h
  obtain ⟨⟨h11, h12⟩, h13⟩ := h1
  refine ⟨⟨⟨⟨⟨⟨h11.symm, h12.symm⟩, h13.symm⟩, aeqB_symm h2⟩, h3.symm⟩,
    listEqBy_symm xiEq (fun a b h => xiEq_symm h) _ _ h4⟩,
    listEqBy_symm aeqB (fun a b h => aeqB_symm h) _ _ h5⟩

theorem termEq_trans {t u v : TermV} (h1 : termEq t u = true)
    (h2 : termEq u v = true) : termEq t v = true := by
  simp only [termEq, Bool.and_eq_true, beq_iff_eq, cfgEq] at *
  obtain ⟨⟨⟨⟨ha, hb⟩, hc⟩, hd⟩, he⟩ := h1
  obtain ⟨⟨ha1, ha2⟩, ha3⟩ := ha
  obtain ⟨⟨⟨⟨ga, gb⟩, gc⟩, gd⟩, ge⟩ := h2
  obtain ⟨⟨ga1, ga2⟩, ga3⟩ := ga
  refine ⟨⟨⟨⟨⟨⟨ha1.trans ga1, ha2.trans ga2⟩, ha3.trans ga3⟩,
    aeqB_trans hb gb⟩, hc.trans gc⟩,
    listEqBy_trans xiEq (fun a b d h1 h2 => xiEq_trans h1 h2) _ _ _ hd gd⟩,
    listEqBy_trans aeqB (fun a b d h1 h2 => aeqB_trans h1 h2) _ _ _ he ge⟩

theorem negTerm_negTerm (t : TermV) : negTerm (negTerm t) = t := by
  cases t with
  | mk a s comps cp cfg =>
    have hs : s * -1 * -1 = s := by ring
    show TermV.mk a (s * -1 * -1) comps cp cfg = TermV.mk a s comps cp cfg
    rw [hs]

theorem negTerm_WF {c : ARConfig} {t : TermV} (ht : WFTerm c t) :
    WFTerm c (negTerm t) :=
  ⟨ht.1, ht.2.1, by simpa [negTerm] using fun hh => ht.2.2.1 (by omega),
    ht.2.2.2.1, ht.2.2.2.2⟩

theorem termEq_negCong {t u : TermV} (h : termEq t u = true) :
    termEq (negTerm t) (negTerm u) = true := by
  simp only [termEq, negTerm, Bool.and_eq_true, beq_iff_eq] at *
  obtain ⟨⟨⟨⟨h1, h2⟩, h3⟩, h4⟩, h5⟩ := h
  exact ⟨⟨⟨⟨h1, h2⟩, by rw [h3]⟩, h4⟩, h5⟩

theorem termEq_selfNeg {c : ARConfig} {t : TermV} (ht : WFTerm c t) :
    termEq t (negTerm t) = false := by
  apply Bool.eq_false_iff.mpr
  intro hh
  simp only [termEq, negTerm, Bool.and_eq_true, beq_iff_eq] at hh
  obtain ⟨⟨⟨⟨_, _⟩, h3⟩, _⟩, _⟩ := hh
  exact ht.2.2.1 (by omega)

theorem termEq_refl (t : TermV) : termEq t t = true := by
  simp [termEq, cfgEq, aeqB_refl, listEqBy_refl xiEq_refl,
    listEqBy_refl aeqB_refl]

/-- The invariant of the `seen` dict during the `cancel_terms` loop:
buckets are nonempty lists of terms equal to their key, everything is
well formed, and the keys are pairwise unequal, pairwise
non-mutually-negating, and listed in non-descending term order. -/
structure SeenInv (c : ARConfig) (seen : List (TermV × List TermV)) : Prop where
  bne : ∀ kv ∈ seen, kv.2 ≠ []
  coh : ∀ kv ∈ seen, ∀ e ∈ kv.2, termEq kv.1 e = true
  keyWF : ∀ kv ∈ seen, WFTerm c kv.1
  elemWF : ∀ kv ∈ seen, ∀ e ∈ kv.2, WFTerm c e
  keysPw : (seen.map Prod.fst).Pairwise (fun k k' =>
    termEq k k' = false ∧ termEq k (negTerm k') = false ∧
    termEq k' (negTerm k) = false ∧ termLt k' k = false)

theorem SeenInv.nil {c : ARConfig} : SeenInv c [] :=
  ⟨fun _ h => absurd h (List.not_mem_nil _), fun _ h => absurd h (List.not_mem_nil _),
   fun _ h => absurd h (List.not_mem_nil _), fun _ h => absurd h (List.not_mem_nil _),
   List.Pairwise.nil⟩

theorem SeenInv.tail {c : ARConfig} {kv : TermV × List TermV}
    {rest : List (TermV × List TermV)} (h : SeenInv c (kv :: rest)) :
    SeenInv c rest :=
  ⟨fun x hx => h.bne x (List.mem_cons_of_mem kv hx),
   fun x hx => h.coh x (List.mem_cons_of_mem kv hx),
   fun x hx => h.keyWF x (List.mem_cons_of_mem kv hx),
   fun x hx => h.elemWF x (List.mem_cons_of_mem kv hx),
   (List.pairwise_cons.mp h.keysPw).2⟩

theorem seenCancel_keys {n : TermV} :
    ∀ {seen : List (TermV × List TermV)} {k : TermV},
      k ∈ (seenCancel n seen).map Prod.fst → k ∈ seen.map Prod.fst := by
  intro seen
  induction seen with
  | nil =>
    intro k hk
    simp [seenCancel] at hk
  | cons kv rest ih =>
    intro k hk
    rw [seenCancel] at hk
    by_cases he : termEq kv.1 n = true
    · rw [if_pos he] at hk
      by_cases hl : (kv.2.length == 1) = true
      · rw [if_pos hl] at hk
        exact List.mem_cons_of_mem _ hk
      · rw [if_neg hl] at hk
        simpa using (List.mem_cons.mp hk).imp id id
    · rw [if_neg he] at hk
      rcases List.mem_cons.mp hk with rfl | hk
      · exact List.mem_cons_self _ _
      · exact List.mem_cons_of_mem _ (ih hk)

theorem seenCancel_inv {c : ARConfig} {n : TermV} :
    ∀ {seen : List (TermV × List TermV)}, SeenInv c seen →
      SeenInv c (seenCancel n seen) := by
  intro seen
  induction seen with
  | nil => intro h; exact h
  | cons kv rest ih =>
    intro h
    have hhead := List.pairwise_cons.mp h.keysPw
    rw [seenCancel]
    by_cases he : termEq kv.1 n = true
    · rw [if_pos he]
      by_cases hl : (kv.2.length == 1) = true
      · rw [if_pos hl]
        exact h.tail
      · rw [if_neg hl]
        have hmem : ∀ e ∈ kv.2.drop 1, e ∈ kv.2 := fun e he => List.mem_of_mem_drop he
        refine ⟨?_, ?_, ?_, ?_, ?_⟩
        · intro x hx
          rcases List.mem_cons.mp hx with rfl | hx
          · have h1 : kv.2 ≠ [] := h.bne kv (List.mem_cons_self kv rest)
            have h2 : kv.2.length ≠ 1 := by simpa using hl
            have h0 : kv.2.length ≠ 0 := fun hz => h1 (List.length_eq_zero.mp hz)
            intro hh
            have hlen : (List.drop 1 kv.2).length = 0 := by
              simpa using congrArg List.length hh
            rw [List.length_drop] at hlen
            omega
          · exact h.bne x (List.mem_cons_of_mem kv hx)
        · intro x hx
          rcases List.mem_cons.mp hx with rfl | hx
          · exact fun e he => h.coh kv (List.mem_cons_self kv rest) e (hmem e he)
          · exact h.coh x (List.mem_cons_of_mem kv hx)
        · intro x hx
          rcases List.mem_cons.mp hx with rfl | hx
          · exact h.keyWF kv (List.mem_cons_self kv rest)
          · exact h.keyWF x (List.mem_cons_of_mem kv hx)
        · intro x hx
          rcases List.mem_cons.mp hx with rfl | hx
          · exact fun e he => h.elemWF kv (List.mem_cons_self kv rest) e (hmem e he)
          · exact h.elemWF x (List.mem_cons_of_mem kv hx)
        · exact h.keysPw
    · rw [if_neg he]
      refine ⟨?_, ?_, ?_, ?_, ?_⟩
      · intro x hx
        rcases List.mem_cons.mp hx with rfl | hx
        · exact h.bne x (List.mem_cons_self x rest)
        · exact (ih h.tail).bne x hx
      · intro x hx
        rcases List.mem_cons.mp hx with rfl | hx
        · exact h.coh x (List.mem_cons_self x rest)
        · exact (ih h.tail).coh x hx
      · intro x hx
        rcases List.mem_cons.mp hx with rfl | hx
        · exact h.keyWF x (List.mem_cons_self x rest)
        · exact (ih h.tail).keyWF x hx
      · intro x hx
        rcases List.mem_cons.mp hx with rfl | hx
        · exact h.elemWF x (List.mem_cons_self x rest)
        · exact (ih h.tail).elemWF x hx
      · rw [List.map_cons]
        refine List.pairwise_cons.mpr ⟨?_, (ih h.tail).keysPw⟩
        intro k hk
        exact hhead.1 k (seenCancel_keys hk)

theorem seenAppend_keys {t : TermV} :
    ∀ {seen : List (TermV × List TermV)} {k : TermV},
      k ∈ (seenAppend t seen).map Prod.fst →
      k ∈ seen.map Prod.fst ∨ k = t := by
  intro seen
  induction seen with
  | nil =>
    intro k hk
    simp [seenAppend] at hk
    exact Or.inr hk
  | cons kv rest ih =>
    intro k hk
    rw [seenAppend] at hk
    by_cases he : termEq kv.1 t = true
    · rw [if_pos he] at hk
      rcases List.mem_cons.mp hk with rfl | hk
      · exact Or.inl (List.mem_cons_self _ _)
      · exact Or.inl (List.mem_cons_of_mem _ hk)
    · rw [if_neg he] at hk
      rcases List.mem_cons.mp hk with rfl | hk
      · exact Or.inl (List.mem_cons_self _ _)
      · rcases ih hk with hk | hk
        · exact Or.inl (List.mem_cons_of_mem _ hk)
        · exact Or.inr hk

theorem termEq_negSwap {c : ARConfig} {k t : TermV} (_hk : WFTerm c k)
    (_ht : WFTerm c t) (h : termEq k (negTerm t) = false) :
    termEq t (negTerm k) = false := by
  apply Bool.eq_false_iff.mpr
  intro hh
  have h1 : termEq (negTerm t) (negTerm (negTerm k)) = true := termEq_negCong hh
  rw [negTerm_negTerm] at h1
  have h2 : termEq k (negTerm t) = true := termEq_symm h1
  rw [h] at h2
  exact Bool.noConfusion h2

theorem seenAppend_inv {c : ARConfig} {t : TermV} (hwt : WFTerm c t) :
    ∀ {seen : List (TermV × List TermV)}, SeenInv c seen →
      (∀ kv ∈ seen, termEq kv.1 (negTerm t) = false) →
      (∀ k ∈ seen.map Prod.fst, termLt t k = false) →
      SeenInv c (seenAppend t seen) := by
  intro seen
  induction seen with
  | nil =>
    intro _ _ _
    refine ⟨?_, ?_, ?_, ?_, ?_⟩ <;>
      simp [seenAppend, termEq_refl, hwt]
  | cons kv rest ih =>
    intro h hneg hord
    have hhead := List.pairwise_cons.mp h.keysPw
    rw [seenAppend]
    by_cases he : termEq kv.1 t = true
    · rw [if_pos he]
      refine ⟨?_, ?_, ?_, ?_, ?_⟩
      · intro x hx
        rcases List.mem_cons.mp hx with rfl | hx
        · simp
        · exact h.bne x (List.mem_cons_of_mem kv hx)
      · intro x hx
        rcases List.mem_cons.mp hx with rfl | hx
        · intro e hemem
          rcases List.mem_append.mp hemem with hemem | hemem
          · exact h.coh kv (List.mem_cons_self kv rest) e hemem
          · rw [List.mem_singleton.mp hemem]
            exact he
        · exact h.coh x (List.mem_cons_of_mem kv hx)
      · intro x hx
        rcases List.mem_cons.mp hx with rfl | hx
        · exact h.keyWF kv (List.mem_cons_self kv rest)
        · exact h.keyWF x (List.mem_cons_of_mem kv hx)
      · intro x hx
        rcases List.mem_cons.mp hx with rfl | hx
        · intro e hemem
          rcases List.mem_append.mp hemem with hemem | hemem
          · exact h.elemWF kv (List.mem_cons_self kv rest) e hemem
          · rw [List.mem_singleton.mp hemem]
            exact hwt
        · exact h.elemWF x (List.mem_cons_of_mem kv hx)
      · exact h.keysPw
    · rw [if_neg he]
      have hrest : SeenInv c (seenAppend t rest) :=
        ih h.tail (fun x hx => hneg x (List.mem_cons_of_mem kv hx))
          (fun k hk => hord k (List.mem_cons_of_mem kv.1 hk))
      refine ⟨?_, ?_, ?_, ?_, ?_⟩
      · intro x hx
        rcases List.mem_cons.mp hx with rfl | hx
        · exact h.bne x (List.mem_cons_self x rest)
        · exact hrest.bne x hx
      · intro x hx
        rcases List.mem_cons.mp hx with rfl | hx
        · exact h.coh x (List.mem_cons_self x rest)
        · exact hrest.coh x hx
      · intro x hx
        rcases List.mem_cons.mp hx with rfl | hx
        · exact h.keyWF x (List.mem_cons_self x rest)
        · exact hrest.keyWF x hx
      · intro x hx
        rcases List.mem_cons.mp hx with rfl | hx
        · exact h.elemWF x (List.mem_cons_self x rest)
        · exact hrest.elemWF x hx
      · rw [List.map_cons]
        refine List.pairwise_cons.mpr ⟨?_, hrest.keysPw⟩
        intro k hk
        rcases seenAppend_keys hk with hk | rfl
        · exact hhead.1 k hk
        · have hkWF := h.keyWF kv (List.mem_cons_self kv rest)
          have hne : termEq kv.1 k = false := Bool.eq_false_iff.mpr he
          have hn1 : termEq kv.1 (negTerm k) = false :=
            hneg kv (List.mem_cons_self kv rest)
          exact ⟨hne, hn1, termEq_negSwap hkWF hwt hn1,
            hord kv.1 (List.mem_cons_self kv.1 (rest.map Prod.fst))⟩

theorem seenStep_inv {c : ARConfig} {t : TermV}
    {seen : List (TermV × List TermV)} (h : SeenInv c seen)
    (hwt : WFTerm c t)
    (hord : ∀ k ∈ seen.map Prod.fst, termLt t k = false) :
    SeenInv c (seenStep seen t) := by
  unfold seenStep
  by_cases hany : (seen.any fun kv => termEq kv.1 (negTerm t)) = true
  · rw [if_pos hany]
    exact seenCancel_inv h
  · rw [if_neg hany]
    refine seenAppend_inv hwt h ?_ hord
    intro kv hkv
    have := List.any_eq_false.mp (Bool.not_eq_true _ ▸ hany) kv hkv
    exact Bool.eq_false_iff.mpr this

theorem seenStep_keys {t : TermV} {seen : List (TermV × List TermV)}
    {k : TermV} (hk : k ∈ (seenStep seen t).map Prod.fst) :
    k ∈ seen.map Prod.fst ∨ k = t := by
  unfold seenStep at hk
  by_cases hany : (seen.any fun kv => termEq kv.1 (negTerm t)) = true
  · rw [if_pos hany] at hk
    exact Or.inl (seenCancel_keys hk)
  · rw [if_neg hany] at hk
    exact seenAppend_keys hk

theorem foldl_seenStep_inv {c : ARConfig} :
    ∀ (l : List TermV) (seen : List (TermV × List TermV)),
      SeenInv c seen →
      (∀ x ∈ l, WFTerm c x) →
      (∀ x ∈ l, ∀ k ∈ seen.map Prod.fst, termLt x k = false) →
      l.Pairwise (fun a b => termLt b a = false) →
      SeenInv c (l.foldl seenStep seen) := by
  intro l
  induction l with
  | nil => intro seen h _ _ _; exact h
  | cons t rest ih =>
    intro seen h hWF hord hpw
    have hhead := List.pairwise_cons.mp hpw
    rw [List.foldl_cons]
    refine ih (seenStep seen t)
      (seenStep_inv h (hWF t (List.mem_cons_self t rest))
        (hord t (List.mem_cons_self t rest)))
      (fun x hx => hWF x (List.mem_cons_of_mem t hx)) ?_ hhead.2
    intro x hx k hk
    rcases seenStep_keys hk with hk | rfl
    · exact hord x (List.mem_cons_of_mem t hx) k hk
    · exact hhead.1 x hx

theorem flattenSeen_mem {seen : List (TermV × List TermV)} {e : TermV}
    (he : e ∈ flattenSeen seen) : ∃ kv ∈ seen, e ∈ kv.2 := by
  rw [flattenSeen, List.mem_flatten] at he
  obtain ⟨l, hl, hel⟩ := he
  obtain ⟨kv, hkv, rfl⟩ := List.mem_map.mp hl
  exact ⟨kv, hkv, hel⟩

theorem flattenSeen_WF {c : ARConfig} {seen : List (TermV × List TermV)}
    (h : SeenInv c seen) : ∀ e ∈ flattenSeen seen, WFTerm c e := by
  intro e he
  obtain ⟨kv, hkv, hel⟩ := flattenSeen_mem he
  exact h.elemWF kv hkv e hel

theorem flattenSeen_pairwise {c : ARConfig}
    {seen : List (TermV × List TermV)} (h : SeenInv c seen) :
    (flattenSeen seen).Pairwise (fun a b => termLt b a = false) := by
  rw [flattenSeen, List.pairwise_flatten]
  constructor
  · intro l hl
    obtain ⟨kv, hkv, rfl⟩ := List.mem_map.mp hl
    have hkWF := h.keyWF kv hkv
    apply List.pairwise_of_forall_mem_list
    intro a ha b hb
    have haWF := h.elemWF kv hkv a ha
    have hbWF := h.elemWF kv hkv b hb
    have h1 : termLt b a = termLt kv.1 a :=
      termLt_congL hbWF hkWF haWF (termEq_symm (h.coh kv hkv b hb))
    have h2 : termLt kv.1 a = termLt kv.1 kv.1 :=
      termLt_congR haWF hkWF hkWF (termEq_symm (h.coh kv hkv a ha))
    rw [h1, h2, termLt_irrefl]
  · have hpw := h.keysPw
    rw [List.pairwise_map] at hpw
    rw [List.pairwise_map]
    refine List.Pairwise.imp_of_mem ?_ hpw
    intro kv kv' hm hm' hrel x hx y hy
    have hkWF := h.keyWF kv hm
    have hkWF' := h.keyWF kv' hm'
    have hxWF := h.elemWF kv hm x hx
    have hyWF := h.elemWF kv' hm' y hy
    have h1 : termLt y x = termLt kv'.1 x :=
      termLt_congL hyWF hkWF' hxWF (termEq_symm (h.coh kv' hm' y hy))
    have h2 : termLt kv'.1 x = termLt kv'.1 kv.1 :=
      termLt_congR hxWF hkWF hkWF' (termEq_symm (h.coh kv hm x hx))
    rw [h1, h2, hrel.2.2.2]

theorem seenAppend_all_new {t : TermV} :
    ∀ {seen : List (TermV × List TermV)},
      (∀ kv ∈ seen, termEq kv.1 t = false) →
      seenAppend t seen = seen ++ [(t, [t])] := by
  intro seen
  induction seen with
  | nil => intro _; rfl
  | cons kv rest ih =>
    intro h
    rw [seenAppend,
      if_neg (by simp [h kv (List.mem_cons_self kv rest)]),
      ih (fun x hx => h x (List.mem_cons_of_mem kv hx)), List.cons_append]

theorem seenAppend_found_at_end {e e0 : TermV} {acc : List TermV} :
    ∀ {A : List (TermV × List TermV)},
      (∀ kv ∈ A, termEq kv.1 e = false) → termEq e0 e = true →
      seenAppend e (A ++ [(e0, acc)]) = A ++ [(e0, acc ++ [e])] := by
  intro A
  induction A with
  | nil =>
    intro _ he0
    simp [seenAppend, he0]
  | cons kv rest ih =>
    intro h he0
    rw [List.cons_append, seenAppend,
      if_neg (by simp [h kv (List.mem_cons_self kv rest)]),
      ih (fun x hx => h x (List.mem_cons_of_mem kv hx)) he0, List.cons_append]

theorem termEq_not_neg_of_two {c : ARConfig} {k e0 e : TermV}
    (heWF : WFTerm c e) (h0 : termEq k e0 = true) (h1 : termEq k e = true) :
    termEq e0 (negTerm e) = false := by
  apply Bool.eq_false_iff.mpr
  intro hh
  have h2 : termEq k (negTerm e) = true := termEq_trans h0 hh
  have h3 : termEq e (negTerm e) = true := termEq_trans (termEq_symm h1) h2
  have h4 := termEq_selfNeg heWF
  rw [h3] at h4
  exact Bool.noConfusion h4

theorem termEq_of_two {k e0 e : TermV} (h0 : termEq k e0 = true)
    (h1 : termEq k e = true) : termEq e0 e = true :=
  termEq_trans (termEq_symm h0) h1

theorem bucketGoAux {c : ARConfig} {k e0 : TermV} (h0 : termEq k e0 = true) :
    ∀ (es : List TermV) (A : List (TermV × List TermV)) (acc : List TermV),
      (∀ e ∈ es, termEq k e = true) →
      (∀ e ∈ es, WFTerm c e) →
      (∀ kv ∈ A, ∀ e ∈ es,
        termEq kv.1 e = false ∧ termEq kv.1 (negTerm e) = false) →
      es.foldl seenStep (A ++ [(e0, acc)]) = A ++ [(e0, acc ++ es)] := by
  intro es
  induction es with
  | nil =>
    intro A acc _ _ _
    rw [List.foldl_nil, List.append_nil]
  | cons e es ih =>
    intro A acc hcoh hWF hA
    have heWF := hWF e (List.mem_cons_self e es)
    have hke := hcoh e (List.mem_cons_self e es)
    rw [List.foldl_cons]
    have hany : ((A ++ [(e0, acc)]).any fun kv => termEq kv.1 (negTerm e)) = false := by
      rw [List.any_eq_false]
      intro kv hkv
      rcases List.mem_append.mp hkv with hkv | hkv
      · exact fun hh =>
          Bool.noConfusion (((hA kv hkv e (List.mem_cons_self e es)).2) ▸ hh)
      · rw [List.mem_singleton.mp hkv]
        exact fun hh => Bool.noConfusion (termEq_not_neg_of_two heWF h0 hke ▸ hh)
    have hstep : seenStep (A ++ [(e0, acc)]) e = A ++ [(e0, acc ++ [e])] := by
      rw [seenStep, if_neg (by simp [hany])]
      exact seenAppend_found_at_end
        (fun kv hkv => (hA kv hkv e (List.mem_cons_self e es)).1)
        (termEq_of_two h0 hke)
    rw [hstep, ih A (acc ++ [e])
      (fun x hx => hcoh x (List.mem_cons_of_mem e hx))
      (fun x hx => hWF x (List.mem_cons_of_mem e hx))
      (fun kv hkv x hx => hA kv hkv x (List.mem_cons_of_mem e hx)),
      List.append_assoc, List.singleton_append]

/-- Rebuilding `seen` from its flattened buckets reproduces the same
bucket lists (with each bucket's first element as its representative
key), so a second `cancel_terms` pass cancels nothing. -/
theorem flattenFold {c : ARConfig} :
    ∀ (seen A : List (TermV × List TermV)),
      SeenInv c seen →
      (∀ kv ∈ A, ∀ kv' ∈ seen, ∀ e ∈ kv'.2,
        termEq kv.1 e = false ∧ termEq kv.1 (negTerm e) = false) →
      ((flattenSeen seen).foldl seenStep A).map Prod.snd =
        A.map Prod.snd ++ seen.map Prod.snd := by
  intro seen
  induction seen with
  | nil =>
    intro A _ _
    simp [flattenSeen]
  | cons kv rest ih =>
    intro A h hA
    obtain ⟨k, es⟩ := kv
    have hmemk : (k, es) ∈ (k, es) :: rest := List.mem_cons_self _ _
    have hbne := h.bne (k, es) hmemk
    have hcoh := h.coh (k, es) hmemk
    have hWFes := h.elemWF (k, es) hmemk
    cases es with
    | nil => exact absurd rfl hbne
    | cons e0 es' =>
      have hflat : flattenSeen ((k, e0 :: es') :: rest) =
          (e0 :: es') ++ flattenSeen rest := by
        simp [flattenSeen]
      rw [hflat, List.foldl_append]
      have he0WF : WFTerm c e0 := hWFes e0 (List.mem_cons_self e0 es')
      have hke0 : termEq k e0 = true := hcoh e0 (List.mem_cons_self e0 es')
      have hAe : ∀ x ∈ e0 :: es', ∀ kvA ∈ A,
          termEq kvA.1 x = false ∧ termEq kvA.1 (negTerm x) = false :=
        fun x hx kvA hkvA => hA kvA hkvA (k, e0 :: es') hmemk x hx
      have hstep0 : seenStep A e0 = A ++ [(e0, [e0])] := by
        rw [seenStep, if_neg (by
          simp only [Bool.not_eq_true]
          rw [List.any_eq_false]
          intro kvA hkvA
          exact fun hh => Bool.noConfusion
            ((hAe e0 (List.mem_cons_self e0 es') kvA hkvA).2 ▸ hh))]
        exact seenAppend_all_new
          (fun kvA hkvA => (hAe e0 (List.mem_cons_self e0 es') kvA hkvA).1)
      have hbucket : (e0 :: es').foldl seenStep A = A ++ [(e0, e0 :: es')] := by
        rw [List.foldl_cons, hstep0]
        have := bucketGoAux hke0 es' A [e0]
          (fun x hx => hcoh x (List.mem_cons_of_mem e0 hx))
          (fun x hx => hWFes x (List.mem_cons_of_mem e0 hx))
          (fun kvA hkvA x hx => hAe x (List.mem_cons_of_mem e0 hx) kvA hkvA)
        rw [this, List.singleton_append]
      rw [hbucket]
      have hkeyrel := List.pairwise_cons.mp h.keysPw
      have hA' : ∀ kvA ∈ A ++ [(e0, e0 :: es')], ∀ kv' ∈ rest, ∀ e ∈ kv'.2,
          termEq kvA.1 e = false ∧ termEq kvA.1 (negTerm e) = false := by
        intro kvA hkvA kv' hkv' e he
        rcases List.mem_append.mp hkvA with hkvA | hkvA
        · exact hA kvA hkvA kv' (List.mem_cons_of_mem _ hkv') e he
        · rw [List.mem_singleton.mp hkvA]
          have hrel := hkeyrel.1 kv'.1
            (List.mem_map.mpr ⟨kv', hkv', rfl⟩)
          have hk'e : termEq kv'.1 e = true :=
            h.coh kv' (List.mem_cons_of_mem _ hkv') e he
          constructor
          · apply Bool.eq_false_iff.mpr
            intro hh
            have h1 : termEq k e = true := termEq_trans hke0 hh
            have h2 : termEq k kv'.1 = true :=
              termEq_trans h1 (termEq_symm hk'e)
            rw [hrel.1] at h2
            exact Bool.noConfusion h2
          · apply Bool.eq_false_iff.mpr
            intro hh
            have h1 : termEq k (negTerm e) = true := termEq_trans hke0 hh
            have h2 : termEq (negTerm kv'.1) (negTerm e) = true :=
              termEq_negCong hk'e
            have h3 : termEq k (negTerm kv'.1) = true :=
              termEq_trans h1 (termEq_symm h2)
            rw [hrel.2.1] at h3
            exact Bool.noConfusion h3
      rw [ih (A ++ [(e0, e0 :: es')]) h.tail hA']
      simp

theorem flattenSeen_congr {X Y : List (TermV × List TermV)}
    (h : X.map Prod.snd = Y.map Prod.snd) : flattenSeen X = flattenSeen Y := by
  rw [flattenSeen, flattenSeen, h]

/-- `cancel_terms` is a fixed point after one application: the heart of
idempotence. -/
theorem cancelTerms_fix {c : ARConfig} {l : List TermV}
    (hWF : ∀ t ∈ l, WFTerm c t) :
    cancelTerms (cancelTerms l) = cancelTerms l := by
  have hWFs : ∀ t ∈ sortBy termLt l, WFTerm c t :=
    fun t ht => hWF t (mem_sortBy.mp ht)
  have hpws : (sortBy termLt l).Pairwise (fun a b => termLt b a = false) :=
    sortBy_pairwise termLt (WFTerm c) (fun a b ha hb hh => termLt_asymm ha hb hh)
      (fun a b d ha hb hd h1 h2 => termLt_negTrans ha hb hd h1 h2) hWF
  have hinv : SeenInv c (buildSeen (sortBy termLt l)) :=
    foldl_seenStep_inv (sortBy termLt l) [] SeenInv.nil hWFs (by simp) hpws
  have hF_pw := flattenSeen_pairwise hinv
  have h1 : cancelTerms l = flattenSeen (buildSeen (sortBy termLt l)) := by
    rw [cancelTerms]
    exact sortBy_eq_self hF_pw
  rw [h1, cancelTerms, sortBy_eq_self hF_pw]
  have hsnd : (buildSeen (flattenSeen (buildSeen (sortBy termLt l)))).map Prod.snd
      = (buildSeen (sortBy termLt l)).map Prod.snd := by
    have := flattenFold (buildSeen (sortBy termLt l)) [] hinv (by simp)
    simpa [buildSeen] using this
  rw [flattenSeen_congr hsnd]
  exact sortBy_eq_self hF_pw

/-- C5: `cancel_terms` is idempotent — applying it twice to a
multivector yields the same term list as applying it once (for
multivectors whose terms are well formed under the multivector's
configuration, the scope on which the source's sort is well defined). -/
theorem c5_cancel_terms_idempotent (m : MultiVectorV)
    (h : ∀ t ∈ m.terms, WFTerm m.cfg t) :
    (cancelTermsMV (cancelTermsMV m)).terms = (cancelTermsMV m).terms := by
  simp only [cancelTermsMV]
  exact cancelTerms_fix h

/-- Witness for C5 at a three-term multivector containing one cancelling
pair. -/
theorem c5_cancel_terms_idempotent_witness :
    (cancelTermsMV (cancelTermsMV
      { terms := [mkTermAlpha (blade "1" 1) defaultConfig,
                  negTerm (mkTermAlpha (blade "1" 1) defaultConfig),
                  mkTermAlpha (blade "2" 1) defaultConfig],
        cfg := defaultConfig })).terms =
    (cancelTermsMV
      { terms := [mkTermAlpha (blade "1" 1) defaultConfig,
                  negTerm (mkTermAlpha (blade "1" 1) defaultConfig),
                  mkTermAlpha (blade "2" 1) defaultConfig],
        cfg := defaultConfig }).terms :=
  c5_cancel_terms_idempotent
    { terms := [mkTermAlpha (blade "1" 1) defaultConfig,
                negTerm (mkTermAlpha (blade "1" 1) defaultConfig),
                mkTermAlpha (blade "2" 1) defaultConfig],
      cfg := defaultConfig }
    (by decide)

end Arpy
